import Mathlib

/-!
# Chunked RSA file transform (`src/Crypto/Crypto.cpp`)

A shallow embedding of the block-chunking code of `crypto::Crypto`.

Modelling conventions.

* A byte is a `Fin 256`; a `std::vector<unsigned char>` is a `List Byte`.
* `RSA_size(key)` is the parameter `K : Nat`.  The single-block calls
  `RSA_public_encrypt` / `RSA_private_decrypt` are parameters of type
  `Primitive`: they receive the slice the C++ code points them at and return
  `none` for the `-1` return value, `some c` for the bytes they write (the
  returned `int` is `c.length`).
* `int data_size = data.size()` narrows a `size_t` to a 32-bit `int`.
  `EncryptWithPublicKey32`, `DecryptWithPrivateKey32` and
  `EncryptWithPublicKey32.offsets` model that conversion (`toInt32`): a buffer
  of `2 ^ 31` bytes has a negative `data_size` and the loop never runs.
  `EncryptWithPublicKey`, `DecryptWithPrivateKey` and `PerformEncryption` read
  the sizes exactly; they coincide with the 32-bit reading on every buffer of
  fewer than `2 ^ 31` bytes (`EncryptWithPublicKey32_eq_exact`,
  `DecryptWithPrivateKey32_eq_exact`), in particular on every buffer the file
  operations build (at most `10000` bytes, the read window).
* A `while` loop is a structurally recursive function on a fuel counter; a
  loop that is still running when the counter reaches zero yields
  `Outcome.outOfFuel`.  The wrappers start the loops with a counter that
  exceeds the number of iterations of every terminating run.
* An access outside a buffer (undefined behaviour in C++) is the explicit
  outcome `Outcome.outOfBounds`; an iterator range or length that is negative
  is `Outcome.badRange`; a null key handle given to `RSA_size` is
  `Outcome.nullKey`.
* Each run also records, in order, the slices handed to the primitive
  (`Run.calls`); this list is not part of the C++ state.
-/

set_option maxRecDepth 100000

namespace crypto

abbrev Byte := Fin 256

abbrev Bytes := List Byte

/-- One call of the single-block primitive on a slice: `none` is the `-1`
return value, `some c` the bytes written to the output pointer. -/
abbrev Primitive := Bytes → Option Bytes

/-- How a modelled function ends. -/
inductive Outcome (α : Type) where
  | done (value : α)
  | outOfBounds
  | badRange
  | nullKey
  | outOfFuel
deriving DecidableEq

/-- Result of a modelled function together with the slices it handed to the
primitive, in call order. -/
structure Run (α : Type) where
  out : Outcome α
  calls : List Bytes
deriving DecidableEq

/-- The call `v.resize(n)` on a byte vector: truncate, or extend with zero bytes. -/
def resize (v : Bytes) (n : Nat) : Bytes :=
  v.take n ++ List.replicate (n - v.length) 0

/-- Bytes `c` stored into buffer `v` from index `off` on (the store is in bounds
when `off + c.length ≤ v.length`). -/
def writeAt (v : Bytes) (off : Nat) (c : Bytes) : Bytes :=
  v.take off ++ c ++ v.drop (off + c.length)

/-- The constant `42` subtracted from `RSA_size` in the source. -/
def padding_overhead : Int := 42

/-- The local `input_block_size = RSA_size(publicKey) - 42`. -/
def input_block_size (K : Nat) : Int := (K : Int) - padding_overhead

/-- The ternary `(remaining > input_block_size) ? input_block_size : remaining`. -/
def block_size_of (K : Nat) (remaining : Int) : Int :=
  if remaining > input_block_size K then input_block_size K else remaining

/-- Loop of `Crypto::PerformEncryption` (lines 99-115) followed by the final
`resize` and `return` (lines 117-119).  State: the output buffer
`encrypted_data`, `total_encrypted_length`, `data_offset`. -/
def PerformEncryption.loop (K : Nat) (enc : Primitive) (data : Bytes) :
    Nat → Bytes → Nat → Nat → List Bytes → Run Bytes
  | 0, encrypted_data, total_encrypted_length, data_offset, calls =>
    if data_offset < data.length then ⟨.outOfFuel, calls⟩
    else ⟨.done (resize encrypted_data total_encrypted_length), calls⟩
  | fuel + 1, encrypted_data, total_encrypted_length, data_offset, calls =>
    if data_offset < data.length then
      let remaining_data : Int := (data.length : Int) - data_offset
      let block_size : Int := block_size_of K remaining_data
      if block_size < 0 then ⟨.badRange, calls⟩
      else
        let slice := (data.drop data_offset).take block_size.toNat
        match enc slice with
        | none => ⟨.done [], calls ++ [slice]⟩
        | some c =>
          if total_encrypted_length + c.length ≤ encrypted_data.length then
            PerformEncryption.loop K enc data fuel
              (writeAt encrypted_data total_encrypted_length c)
              (total_encrypted_length + c.length)
              (data_offset + block_size.toNat)
              (calls ++ [slice])
          else ⟨.outOfBounds, calls ++ [slice]⟩
    else ⟨.done (resize encrypted_data total_encrypted_length), calls⟩

/-- `Crypto::PerformEncryption` (lines 91-120): the output buffer starts as
`RSA_size` zero bytes.  `remaining_data` is read exactly; the chunk loops enter
this function with at most `RSA_size - 42` bytes.  A negative `block_size`
(possible only for `RSA_size < 42`) is handed by the source to the primitive
as a negative length; the model ends the run there with `badRange`. -/
def PerformEncryption (K : Nat) (enc : Primitive) (data : Bytes) : Run Bytes :=
  PerformEncryption.loop K enc data (data.length + 1) (List.replicate K 0) 0 0 []

/-- Loop of `Crypto::PerformDecryption` (lines 128-141) followed by the final
`resize` and `return` (lines 143-145).  The primitive is asked to read
`encrypted_block_size = RSA_size` bytes from `&encrypted_data[data_offset]`. -/
def PerformDecryption.loop (K : Nat) (dec : Primitive) (encrypted_data : Bytes) :
    Nat → Bytes → Nat → Nat → List Bytes → Run Bytes
  | 0, decrypted_data, total_decrypted_length, data_offset, calls =>
    if data_offset < encrypted_data.length then ⟨.outOfFuel, calls⟩
    else ⟨.done (resize decrypted_data total_decrypted_length), calls⟩
  | fuel + 1, decrypted_data, total_decrypted_length, data_offset, calls =>
    if data_offset < encrypted_data.length then
      if encrypted_data.length < data_offset + K then ⟨.outOfBounds, calls⟩
      else
        let slice := (encrypted_data.drop data_offset).take K
        match dec slice with
        | none => ⟨.done [], calls ++ [slice]⟩
        | some m =>
          if total_decrypted_length + m.length ≤ decrypted_data.length then
            PerformDecryption.loop K dec encrypted_data fuel
              (writeAt decrypted_data total_decrypted_length m)
              (total_decrypted_length + m.length)
              (data_offset + K)
              (calls ++ [slice])
          else ⟨.outOfBounds, calls ++ [slice]⟩
    else ⟨.done (resize decrypted_data total_decrypted_length), calls⟩

/-- `Crypto::PerformDecryption` (lines 122-146). -/
def PerformDecryption (K : Nat) (dec : Primitive) (encrypted_data : Bytes) : Run Bytes :=
  PerformDecryption.loop K dec encrypted_data (encrypted_data.length + 1)
    (List.replicate K 0) 0 0 []

/-- Loop of `Crypto::EncryptWithPublicKey` (lines 154-161) and the `return`
(line 163).  State: the accumulated `encrypted_data` and `data_offset`. -/
def EncryptWithPublicKey.loop (K : Nat) (enc : Primitive) (data : Bytes) :
    Nat → Bytes → Nat → List Bytes → Run Bytes
  | 0, encrypted_data, data_offset, calls =>
    if data_offset < data.length then ⟨.outOfFuel, calls⟩
    else ⟨.done encrypted_data, calls⟩
  | fuel + 1, encrypted_data, data_offset, calls =>
    if data_offset < data.length then
      let block_size : Int := block_size_of K ((data.length : Int) - data_offset)
      if block_size < 0 then ⟨.badRange, calls⟩
      else
        let chunk_to_encrypt := (data.drop data_offset).take block_size.toNat
        let r := PerformEncryption K enc chunk_to_encrypt
        match r.out with
        | .done encrypted_chunk =>
          EncryptWithPublicKey.loop K enc data fuel
            (encrypted_data ++ encrypted_chunk)
            (data_offset + block_size.toNat)
            (calls ++ r.calls)
        | .outOfBounds => ⟨.outOfBounds, calls ++ r.calls⟩
        | .badRange => ⟨.badRange, calls ++ r.calls⟩
        | .nullKey => ⟨.nullKey, calls ++ r.calls⟩
        | .outOfFuel => ⟨.outOfFuel, calls ++ r.calls⟩
    else ⟨.done encrypted_data, calls⟩

/-- `Crypto::EncryptWithPublicKey` (lines 148-164), the sizes read exactly.
`EncryptWithPublicKey32` is the reading with 32-bit `int` locals; the two agree
on every buffer of fewer than `2 ^ 31` bytes. -/
def EncryptWithPublicKey (K : Nat) (enc : Primitive) (data : Bytes) : Run Bytes :=
  EncryptWithPublicKey.loop K enc data (data.length + 1) [] 0 []

/-- Loop of `Crypto::DecryptWithPrivateKey` (lines 173-179) and the `return`
(line 181).  The chunk is the iterator range
`[begin + data_offset, begin + data_offset + encrypted_block_size)`, which
leaves the buffer when fewer than `RSA_size` bytes remain. -/
def DecryptWithPrivateKey.loop (K : Nat) (dec : Primitive) (encrypted_data : Bytes) :
    Nat → Bytes → Nat → List Bytes → Run Bytes
  | 0, decrypted_data, data_offset, calls =>
    if data_offset < encrypted_data.length then ⟨.outOfFuel, calls⟩
    else ⟨.done decrypted_data, calls⟩
  | fuel + 1, decrypted_data, data_offset, calls =>
    if data_offset < encrypted_data.length then
      if encrypted_data.length < data_offset + K then ⟨.outOfBounds, calls⟩
      else
        let chunk_to_decrypt := (encrypted_data.drop data_offset).take K
        let r := PerformDecryption K dec chunk_to_decrypt
        match r.out with
        | .done decrypted_chunk =>
          DecryptWithPrivateKey.loop K dec encrypted_data fuel
            (decrypted_data ++ decrypted_chunk)
            (data_offset + K)
            (calls ++ r.calls)
        | .outOfBounds => ⟨.outOfBounds, calls ++ r.calls⟩
        | .badRange => ⟨.badRange, calls ++ r.calls⟩
        | .nullKey => ⟨.nullKey, calls ++ r.calls⟩
        | .outOfFuel => ⟨.outOfFuel, calls ++ r.calls⟩
    else ⟨.done decrypted_data, calls⟩

/-- `Crypto::DecryptWithPrivateKey` (lines 166-182), the sizes read exactly.
`DecryptWithPrivateKey32` is the reading with 32-bit `int` locals; the two
agree on every buffer of fewer than `2 ^ 31` bytes. -/
def DecryptWithPrivateKey (K : Nat) (dec : Primitive) (encrypted_data : Bytes) : Run Bytes :=
  DecryptWithPrivateKey.loop K dec encrypted_data (encrypted_data.length + 1) [] 0 []

/-! ## The 32-bit `int` reading of the buffer sizes -/

/-- Conversion of a `size_t` value to `int` (32 bits, two's complement): what
`int data_size = data.size()` stores. -/
def toInt32 (n : Nat) : Int :=
  if n % 2 ^ 32 < 2 ^ 31 then ((n % 2 ^ 32 : Nat) : Int)
  else ((n % 2 ^ 32 : Nat) : Int) - 2 ^ 32

/-- Loop of `Crypto::EncryptWithPublicKey` (lines 154-161) and the `return`
(line 163), with `data_size` the `int` conversion of `data.size()` (line 151).
`data_offset` starts at `0` and only grows by a non-negative `block_size`, and
`data_offset + block_size` never exceeds `data_size`, so no `int` operation
overflows. -/
def EncryptWithPublicKey32.loop (K : Nat) (enc : Primitive) (data : Bytes) :
    Nat → Bytes → Nat → List Bytes → Run Bytes
  | 0, encrypted_data, data_offset, calls =>
    if (data_offset : Int) < toInt32 data.length then ⟨.outOfFuel, calls⟩
    else ⟨.done encrypted_data, calls⟩
  | fuel + 1, encrypted_data, data_offset, calls =>
    if (data_offset : Int) < toInt32 data.length then
      let block_size : Int := block_size_of K (toInt32 data.length - data_offset)
      if block_size < 0 then ⟨.badRange, calls⟩
      else
        let chunk_to_encrypt := (data.drop data_offset).take block_size.toNat
        let r := PerformEncryption K enc chunk_to_encrypt
        match r.out with
        | .done encrypted_chunk =>
          EncryptWithPublicKey32.loop K enc data fuel
            (encrypted_data ++ encrypted_chunk)
            (data_offset + block_size.toNat)
            (calls ++ r.calls)
        | .outOfBounds => ⟨.outOfBounds, calls ++ r.calls⟩
        | .badRange => ⟨.badRange, calls ++ r.calls⟩
        | .nullKey => ⟨.nullKey, calls ++ r.calls⟩
        | .outOfFuel => ⟨.outOfFuel, calls ++ r.calls⟩
    else ⟨.done encrypted_data, calls⟩

/-- `Crypto::EncryptWithPublicKey` (lines 148-164) with 32-bit `int` locals. -/
def EncryptWithPublicKey32 (K : Nat) (enc : Primitive) (data : Bytes) : Run Bytes :=
  EncryptWithPublicKey32.loop K enc data (data.length + 1) [] 0 []

/-- Loop of `Crypto::DecryptWithPrivateKey` (lines 173-179) and the `return`
(line 181), with `data_size` the `int` conversion of `encrypted_data.size()`
(line 170).  The chunk range is checked against the real size of the
buffer. -/
def DecryptWithPrivateKey32.loop (K : Nat) (dec : Primitive) (encrypted_data : Bytes) :
    Nat → Bytes → Nat → List Bytes → Run Bytes
  | 0, decrypted_data, data_offset, calls =>
    if (data_offset : Int) < toInt32 encrypted_data.length then ⟨.outOfFuel, calls⟩
    else ⟨.done decrypted_data, calls⟩
  | fuel + 1, decrypted_data, data_offset, calls =>
    if (data_offset : Int) < toInt32 encrypted_data.length then
      if encrypted_data.length < data_offset + K then ⟨.outOfBounds, calls⟩
      else
        let chunk_to_decrypt := (encrypted_data.drop data_offset).take K
        let r := PerformDecryption K dec chunk_to_decrypt
        match r.out with
        | .done decrypted_chunk =>
          DecryptWithPrivateKey32.loop K dec encrypted_data fuel
            (decrypted_data ++ decrypted_chunk)
            (data_offset + K)
            (calls ++ r.calls)
        | .outOfBounds => ⟨.outOfBounds, calls ++ r.calls⟩
        | .badRange => ⟨.badRange, calls ++ r.calls⟩
        | .nullKey => ⟨.nullKey, calls ++ r.calls⟩
        | .outOfFuel => ⟨.outOfFuel, calls ++ r.calls⟩
    else ⟨.done decrypted_data, calls⟩

/-- `Crypto::DecryptWithPrivateKey` (lines 166-182) with 32-bit `int` locals. -/
def DecryptWithPrivateKey32 (K : Nat) (dec : Primitive) (encrypted_data : Bytes) : Run Bytes :=
  DecryptWithPrivateKey32.loop K dec encrypted_data (encrypted_data.length + 1) [] 0 []

/-- The value of `data_offset` at each evaluation of the loop condition of
`Crypto::EncryptWithPublicKey` (line 154), in order, with 32-bit `int`
locals. -/
def EncryptWithPublicKey32.offsets (K : Nat) (enc : Primitive) (data : Bytes) :
    Nat → Nat → List Nat
  | 0, data_offset => [data_offset]
  | fuel + 1, data_offset =>
    if (data_offset : Int) < toInt32 data.length then
      let block_size : Int := block_size_of K (toInt32 data.length - data_offset)
      if block_size < 0 then [data_offset]
      else
        match (PerformEncryption K enc ((data.drop data_offset).take block_size.toNat)).out with
        | .done _ =>
          data_offset :: EncryptWithPublicKey32.offsets K enc data fuel
            (data_offset + block_size.toNat)
        | _ => [data_offset]
    else [data_offset]

/-! ## Sessions and file streaming -/

/-- A key handle (`RSA *` that is not null): `RSA_size` of the key and the
single-block operation the handle is used for (`RSA_public_encrypt` for a
public key, `RSA_private_decrypt` for a private key). -/
structure RSA where
  size : Nat
  crypt : Primitive

/-- Data members of `crypto::Crypto`: the two key handles (`none` is
`nullptr`) and the flag pair `keys_`. -/
structure Session where
  public_key_ : Option RSA
  private_key_ : Option RSA
  keys_ : Bool × Bool

/-- `Crypto::CreatePublicKeyFromString` (lines 19-35).  `bio` says whether
`BIO_new_mem_buf` returned a buffer, `PEM_read_bio_RSA_PUBKEY` is the library
parser (`none` is `NULL`). -/
def CreatePublicKeyFromString (bio : Bool) (PEM_read_bio_RSA_PUBKEY : String → Option RSA)
    (pemString : String) : Option RSA :=
  if bio then PEM_read_bio_RSA_PUBKEY pemString else none

/-- Constructor `Crypto::Crypto(std::string public_key)` (lines 184-192).
`init` holds the values the members have before the body runs (they come from
the class declaration, which is not part of the source file). -/
def Crypto.ofString (init : Session) (bio : Bool)
    (PEM_read_bio_RSA_PUBKEY : String → Option RSA) (public_key : String) : Session :=
  let s1 := { init with
    public_key_ := CreatePublicKeyFromString bio PEM_read_bio_RSA_PUBKEY public_key }
  { s1 with keys_ := (true, s1.keys_.2) }

/-- How a file operation ends: it returns the output path, throws one of its
three `std::runtime_error`s, or the run is cut short inside the buffer code. -/
inductive FileStatus where
  | returned
  | fileNotFound
  | unableToOpen
  | unableToCreate
  | outOfBounds
  | badRange
  | nullKey
  | outOfFuel
deriving DecidableEq

/-- Result of a file operation: its status, the bytes written to the output
file so far, and the slices handed to the primitive. -/
structure FileRun where
  status : FileStatus
  written : Bytes
  calls : List Bytes
deriving DecidableEq

/-- What the file operations see of the file system: the content of the input
file (`none` when `std::filesystem::exists` is false), whether the input
stream opens, whether the output stream opens. -/
structure Files where
  input : Option Bytes
  input_opens : Bool
  output_opens : Bool

/-- `EncryptWithPublicKey` called on the session's handle: `RSA_size` is
applied to the handle first (line 149). -/
def encryptWithHandle (key : Option RSA) (data : Bytes) : Run Bytes :=
  match key with
  | none => ⟨.nullKey, []⟩
  | some k => EncryptWithPublicKey k.size k.crypt data

/-- `DecryptWithPrivateKey` called on the session's handle: `RSA_size` is
applied to the handle first (line 168). -/
def decryptWithHandle (key : Option RSA) (data : Bytes) : Run Bytes :=
  match key with
  | none => ⟨.nullKey, []⟩
  | some k => DecryptWithPrivateKey k.size k.crypt data

/-- The read loop shared by `EncryptFile` (lines 246-254) and `DecryptFile`
(lines 279-287): `rest` is the unread part of the input stream, `eof` its
end-of-file flag.  `read` delivers `block_size` bytes, or all remaining bytes
and sets the flag when fewer remain; a non-empty window is transformed by
`transform` and the result is written. -/
def streamLoop (transform : Bytes → Run Bytes) (block_size : Nat) :
    Nat → Bytes → Bool → Bytes → List Bytes → FileRun
  | 0, _, eof, written, calls =>
    if eof then ⟨.returned, written, calls⟩ else ⟨.outOfFuel, written, calls⟩
  | fuel + 1, rest, eof, written, calls =>
    if eof then ⟨.returned, written, calls⟩
    else
      let data := rest.take block_size
      let eof_after := decide (rest.length < block_size)
      let rest_after := rest.drop block_size
      if 0 < data.length then
        let r := transform data
        match r.out with
        | .done transformed =>
          streamLoop transform block_size fuel rest_after eof_after
            (written ++ transformed) (calls ++ r.calls)
        | .outOfBounds => ⟨.outOfBounds, written, calls ++ r.calls⟩
        | .badRange => ⟨.badRange, written, calls ++ r.calls⟩
        | .nullKey => ⟨.nullKey, written, calls ++ r.calls⟩
        | .outOfFuel => ⟨.outOfFuel, written, calls ++ r.calls⟩
      else streamLoop transform block_size fuel rest_after eof_after written calls

/-- The checks both file operations make before streaming (lines 226-241 and
260-274), then the read loop with window size `block_size`. -/
def streamFile (transform : Bytes → Run Bytes) (block_size : Nat) (fs : Files) : FileRun :=
  match fs.input with
  | none => ⟨.fileNotFound, [], []⟩
  | some content =>
    if fs.input_opens then
      if fs.output_opens then
        streamLoop transform block_size (content.length + 1) content false [] []
      else ⟨.unableToCreate, [], []⟩
    else ⟨.unableToOpen, [], []⟩

/-- `Crypto::EncryptFile` (lines 225-257) with the read window size as a
parameter. -/
def EncryptFileWith (block_size : Nat) (s : Session) (fs : Files) : FileRun :=
  streamFile (encryptWithHandle s.public_key_) block_size fs

/-- `Crypto::DecryptFile` (lines 259-290) with the read window size as a
parameter. -/
def DecryptFileWith (block_size : Nat) (s : Session) (fs : Files) : FileRun :=
  streamFile (decryptWithHandle s.private_key_) block_size fs

/-- `Crypto::EncryptFile` (lines 225-257): `block_size = 10000`. -/
def EncryptFile (s : Session) (fs : Files) : FileRun := EncryptFileWith 10000 s fs

/-- `Crypto::DecryptFile` (lines 259-290): `block_size = 10000`. -/
def DecryptFile (s : Session) (fs : Files) : FileRun := DecryptFileWith 10000 s fs

/-! ## Helper definitions used to state results -/

/-- Consecutive slices of `l` of length `B` (the last one may be shorter),
computed with a step counter. -/
def chunksFuel (B : Nat) : Nat → Bytes → List Bytes
  | 0, _ => []
  | fuel + 1, l =>
    match l with
    | [] => []
    | a :: t => (a :: t).take B :: chunksFuel B fuel ((a :: t).drop B)

/-- Consecutive slices of `l` of length `B`, the last one possibly shorter. -/
def chunks (B : Nat) (l : Bytes) : List Bytes := chunksFuel B l.length l

/-- Bytes a block contributes to the output of the chunk loops: the
primitive's output, or nothing when the primitive returned `-1`
(`return {}` in `PerformEncryption` / `PerformDecryption`). -/
def blockOutput (prim : Primitive) (s : Bytes) : Bytes := (prim s).getD []

/-- Toy single-block primitive used for concrete evaluations: the block
length, the block, then zero bytes up to `K` bytes. -/
def toyEnc (K : Nat) : Primitive := fun b =>
  some (resize (Fin.ofNat b.length :: b) K)

/-- Variant of `toyEnc` that returns `-1` on the block `bad`. -/
def pickyEnc (K : Nat) (bad : Bytes) : Primitive := fun b =>
  if b = bad then none else toyEnc K b

/-- Inverse of `toyEnc`: the first byte says how many of the following bytes
are the block. -/
def toyDec : Primitive := fun c =>
  match c with
  | [] => none
  | n :: rest => some (rest.take n.val)

/-- Toy decrypt primitive used for concrete evaluations: every block decrypts
to the single byte `7`. -/
def constDec : Primitive := fun _ => some [7]

/-- Session holding the toy key pair of size `K`. -/
def toySession (K : Nat) : Session :=
  ⟨some ⟨K, toyEnc K⟩, some ⟨K, toyDec⟩, (true, true)⟩

/-- What the encrypt chunk loop does with a list of blocks: a block on which
the primitive returns `-1` adds nothing, a block whose ciphertext does not
fit the `RSA_size`-byte buffer of `PerformEncryption` ends the run. -/
def encryptBlocks (K : Nat) (enc : Primitive) : List Bytes → Bytes → List Bytes → Run Bytes
  | [], acc, calls => ⟨.done acc, calls⟩
  | s :: rest, acc, calls =>
    match enc s with
    | none => encryptBlocks K enc rest acc (calls ++ [s])
    | some c =>
      if c.length ≤ K then encryptBlocks K enc rest (acc ++ c) (calls ++ [s])
      else ⟨.outOfBounds, calls ++ [s]⟩

/-- What the decrypt chunk loop does with the consecutive `RSA_size`-byte
slices of its input: a slice that would end beyond the buffer ends the run
before any call, a block on which the primitive returns `-1` adds nothing. -/
def decryptBlocks (K : Nat) (dec : Primitive) : List Bytes → Bytes → List Bytes → Run Bytes
  | [], acc, calls => ⟨.done acc, calls⟩
  | s :: rest, acc, calls =>
    if s.length < K then ⟨.outOfBounds, calls⟩
    else
      match dec s with
      | none => decryptBlocks K dec rest acc (calls ++ [s])
      | some m =>
        if m.length ≤ K then decryptBlocks K dec rest (acc ++ m) (calls ++ [s])
        else ⟨.outOfBounds, calls ++ [s]⟩

/-- What the read loop does with the list of windows it reads. -/
def transformWindows (transform : Bytes → Run Bytes) : List Bytes → Bytes → List Bytes → FileRun
  | [], written, calls => ⟨.returned, written, calls⟩
  | w :: ws, written, calls =>
    match (transform w).out with
    | .done t => transformWindows transform ws (written ++ t) (calls ++ (transform w).calls)
    | .outOfBounds => ⟨.outOfBounds, written, calls ++ (transform w).calls⟩
    | .badRange => ⟨.badRange, written, calls ++ (transform w).calls⟩
    | .nullKey => ⟨.nullKey, written, calls ++ (transform w).calls⟩
    | .outOfFuel => ⟨.outOfFuel, written, calls ++ (transform w).calls⟩

/-- The plaintext blocks produced when `p` is first cut into windows of `W`
bytes and each window is cut into blocks of `B` bytes. -/
def streamBlocks (B W : Nat) (p : Bytes) : List Bytes :=
  ((chunks W p).map (chunks B)).flatten

/-! ## Key handle lifetime -/

/-- Bytes of a returned result (no bytes when the run did not return). -/
def Outcome.bytes : Outcome Bytes → Bytes
  | .done value => value
  | _ => []

/-- The index `total_encrypted_length` of the output pointer
`&encrypted_data[total_encrypted_length]` (line 104) at each primitive call of
the loop of `Crypto::PerformEncryption`, in call order; `buffer_size` is the
size of `encrypted_data`. -/
def PerformEncryption.writeOffsets (K : Nat) (enc : Primitive) (data : Bytes) :
    Nat → Nat → Nat → Nat → List Nat
  | 0, _, _, _ => []
  | fuel + 1, buffer_size, total_encrypted_length, data_offset =>
    if data_offset < data.length then
      let block_size : Int := block_size_of K ((data.length : Int) - data_offset)
      if block_size < 0 then []
      else
        match enc ((data.drop data_offset).take block_size.toNat) with
        | none => [total_encrypted_length]
        | some c =>
          total_encrypted_length ::
            (if total_encrypted_length + c.length ≤ buffer_size then
              PerformEncryption.writeOffsets K enc data fuel buffer_size
                (total_encrypted_length + c.length) (data_offset + block_size.toNat)
            else [])
    else []

/-- Write offsets of one run of `Crypto::PerformEncryption`: the output buffer
has `RSA_size` bytes and `total_encrypted_length` starts at `0`. -/
def PerformEncryption.callOffsets (K : Nat) (enc : Primitive) (data : Bytes) : List Nat :=
  PerformEncryption.writeOffsets K enc data (data.length + 1) K 0 0

/-- The value of `data_offset` at each evaluation of the loop condition of
`Crypto::EncryptWithPublicKey` (line 154), in order, the sizes read exactly
(`EncryptWithPublicKey32.offsets` is the reading with 32-bit `int` locals). -/
def EncryptWithPublicKey.offsets (K : Nat) (enc : Primitive) (data : Bytes) :
    Nat → Nat → List Nat
  | 0, data_offset => [data_offset]
  | fuel + 1, data_offset =>
    if data_offset < data.length then
      let block_size : Int := block_size_of K ((data.length : Int) - data_offset)
      if block_size < 0 then [data_offset]
      else
        match (PerformEncryption K enc ((data.drop data_offset).take block_size.toNat)).out with
        | .done _ =>
          data_offset :: EncryptWithPublicKey.offsets K enc data fuel
            (data_offset + block_size.toNat)
        | _ => [data_offset]
    else [data_offset]

/-! ## Basic facts -/

theorem resize_writeAt_zero (K : Nat) (c : Bytes) (_h : c.length ≤ K) :
    resize (writeAt (List.replicate K 0) 0 c) c.length = c := by
  simp [resize, writeAt, List.take_append_eq_append_take]

theorem block_size_of_nonneg (K : Nat) (hK : 42 < K) (r : Int) (hr : 0 ≤ r) :
    ¬ block_size_of K r < 0 := by
  unfold block_size_of input_block_size padding_overhead
  split <;> omega

theorem block_size_of_toNat (K : Nat) (hK : 42 < K) (n off : Nat) :
    (block_size_of K ((n : Int) - off)).toNat = min (K - 42) (n - off) := by
  unfold block_size_of input_block_size padding_overhead
  split <;> omega

theorem block_size_of_small (K : Nat) (n : Nat) (h : (n : Int) ≤ input_block_size K) :
    block_size_of K ((n : Int) - (0 : Nat)) = n := by
  unfold block_size_of
  simp only [Nat.cast_zero, sub_zero]
  split <;> omega

/-- One block through `PerformEncryption`: a non-empty chunk of at most
`RSA_size - 42` bytes costs one primitive call. -/
theorem PerformEncryption_block (K : Nat) (enc : Primitive) (s : Bytes)
    (hs : s ≠ []) (hle : (s.length : Int) ≤ input_block_size K) :
    PerformEncryption K enc s =
      match enc s with
      | none => ⟨.done [], [s]⟩
      | some c => if c.length ≤ K then ⟨.done c, [s]⟩ else ⟨.outOfBounds, [s]⟩ := by
  obtain ⟨a, t, rfl⟩ := List.exists_cons_of_ne_nil hs
  have hbs := block_size_of_small K (a :: t).length hle
  unfold PerformEncryption
  rw [List.length_cons] at *
  unfold PerformEncryption.loop
  simp only [List.length_cons, Nat.zero_lt_succ, if_true]
  rw [hbs]
  have h1 : ¬ ((t.length + 1 : Nat) : Int) < 0 := by omega
  simp only [h1, if_false, Int.toNat_ofNat, List.drop_zero, List.nil_append, Nat.zero_add,
    List.length_replicate]
  have h2 : List.take (t.length + 1) (a :: t) = a :: t := by
    apply List.take_of_length_le
    simp
  rw [h2]
  cases henc : enc (a :: t) with
  | none => rfl
  | some c =>
    simp only
    by_cases hc : c.length ≤ K
    · simp only [hc, if_true]
      unfold PerformEncryption.loop
      simp only [List.length_cons, lt_self_iff_false, if_false]
      rw [resize_writeAt_zero K c hc]
    · simp only [hc, if_false]

theorem PerformDecryption_block (K : Nat) (dec : Primitive) (s : Bytes)
    (hK : 0 < K) (hs : s.length = K) :
    PerformDecryption K dec s =
      match dec s with
      | none => ⟨.done [], [s]⟩
      | some m => if m.length ≤ K then ⟨.done m, [s]⟩ else ⟨.outOfBounds, [s]⟩ := by
  subst hs
  obtain ⟨a, t, rfl⟩ := List.exists_cons_of_ne_nil (List.ne_nil_of_length_pos hK)
  have h2 : List.take (a :: t).length (a :: t) = a :: t := List.take_of_length_le le_rfl
  unfold PerformDecryption
  rw [List.length_cons] at *
  unfold PerformDecryption.loop
  simp only [List.length_cons, Nat.zero_lt_succ, if_true, Nat.zero_add, lt_self_iff_false,
    if_false, List.drop_zero, h2, List.nil_append, List.length_replicate]
  cases hdec : dec (a :: t) with
  | none => rfl
  | some m =>
    simp only
    by_cases hm : m.length ≤ t.length + 1
    · simp only [hm, if_true]
      unfold PerformDecryption.loop
      simp only [List.length_cons, lt_self_iff_false, if_false]
      rw [resize_writeAt_zero _ m hm]
    · simp only [hm, if_false]

theorem chunks_nil (B : Nat) : chunks B [] = [] := rfl

theorem chunksFuel_irrel (B : Nat) (hB : 0 < B) :
    ∀ (f g : Nat) (l : Bytes), l.length ≤ f → l.length ≤ g →
      chunksFuel B f l = chunksFuel B g l := by
  intro f
  induction f with
  | zero =>
    intro g l hf hg
    have : l = [] := List.length_eq_zero.mp (by omega)
    subst this
    cases g <;> rfl
  | succ f ih =>
    intro g l hf hg
    cases l with
    | nil => cases g <;> rfl
    | cons a t =>
      cases g with
      | zero => simp at hg
      | succ g =>
        simp only [chunksFuel]
        congr 1
        apply ih
        · simp only [List.length_drop, List.length_cons] at *; omega
        · simp only [List.length_drop, List.length_cons] at *; omega

theorem chunks_of_ne_nil (B : Nat) (hB : 0 < B) (l : Bytes) (hl : l ≠ []) :
    chunks B l = l.take B :: chunks B (l.drop B) := by
  obtain ⟨a, t, rfl⟩ := List.exists_cons_of_ne_nil hl
  unfold chunks
  simp only [List.length_cons, chunksFuel]
  congr 1
  apply chunksFuel_irrel B hB
  · simp only [List.length_drop, List.length_cons]; omega
  · exact le_rfl

theorem drop_add_min (data : Bytes) (off B : Nat) :
    data.drop (off + min B (data.length - off)) = (data.drop off).drop B := by
  rw [List.drop_drop]
  by_cases h : B ≤ data.length - off
  · rw [Nat.min_eq_left h, Nat.add_comm]
  · rw [List.drop_eq_nil_of_le (by omega), List.drop_eq_nil_of_le (by omega)]

theorem take_min_drop (data : Bytes) (off B : Nat) :
    (data.drop off).take (min B (data.length - off)) = (data.drop off).take B := by
  by_cases h : B ≤ data.length - off
  · rw [Nat.min_eq_left h]
  · rw [Nat.min_eq_right (by omega), List.take_of_length_le (by simp),
      List.take_of_length_le (by simp; omega)]

theorem EncryptWithPublicKey_loop_eq (K : Nat) (hK : 42 < K) (enc : Primitive) (data : Bytes) :
    ∀ (fuel : Nat) (acc : Bytes) (off : Nat) (calls : List Bytes),
      data.length - off < fuel →
      EncryptWithPublicKey.loop K enc data fuel acc off calls =
        encryptBlocks K enc (chunks (K - 42) (data.drop off)) acc calls := by
  intro fuel
  induction fuel with
  | zero => intro acc off calls h; omega
  | succ fuel ih =>
    intro acc off calls hfuel
    unfold EncryptWithPublicKey.loop
    by_cases hlt : off < data.length
    · have hne : data.drop off ≠ [] := by
        intro h
        have := congrArg List.length h
        simp at this
        omega
      have hbs := block_size_of_toNat K hK data.length off
      have hnn := block_size_of_nonneg K hK ((data.length : Int) - off) (by omega)
      simp only [hlt, if_true, hnn, if_false, hbs]
      rw [take_min_drop, chunks_of_ne_nil (K - 42) (by omega) _ hne]
      have hne2 : (data.drop off).take (K - 42) ≠ [] := by
        intro h
        have := congrArg List.length h
        simp at this
        omega
      have hle : (((data.drop off).take (K - 42)).length : Int) ≤ input_block_size K := by
        unfold input_block_size padding_overhead
        simp only [List.length_take, List.length_drop]
        omega
      rw [PerformEncryption_block K enc _ hne2 hle]
      simp only [encryptBlocks]
      cases henc : enc ((data.drop off).take (K - 42)) with
      | none =>
        simp only [List.append_nil]
        rw [ih _ _ _ (by omega), drop_add_min]
      | some c =>
        by_cases hc : c.length ≤ K
        · simp only [hc, if_true]
          rw [ih _ _ _ (by omega), drop_add_min]
        · simp only [hc, if_false]
    · simp only [hlt, if_false]
      rw [List.drop_eq_nil_of_le (by omega), chunks_nil]
      rfl

theorem EncryptWithPublicKey_eq (K : Nat) (hK : 42 < K) (enc : Primitive) (data : Bytes) :
    EncryptWithPublicKey K enc data = encryptBlocks K enc (chunks (K - 42) data) [] [] := by
  unfold EncryptWithPublicKey
  rw [EncryptWithPublicKey_loop_eq K hK enc data _ _ _ _ (by omega)]
  rfl

theorem DecryptWithPrivateKey_loop_eq (K : Nat) (hK : 0 < K) (dec : Primitive) (data : Bytes) :
    ∀ (fuel : Nat) (acc : Bytes) (off : Nat) (calls : List Bytes),
      data.length - off < fuel →
      DecryptWithPrivateKey.loop K dec data fuel acc off calls =
        decryptBlocks K dec (chunks K (data.drop off)) acc calls := by
  intro fuel
  induction fuel with
  | zero => intro acc off calls h; omega
  | succ fuel ih =>
    intro acc off calls hfuel
    unfold DecryptWithPrivateKey.loop
    by_cases hlt : off < data.length
    · have hne : data.drop off ≠ [] := by
        intro h
        have := congrArg List.length h
        simp at this
        omega
      simp only [hlt, if_true]
      rw [chunks_of_ne_nil K hK _ hne]
      simp only [decryptBlocks, List.length_take, List.length_drop]
      by_cases hshort : data.length < off + K
      · have h2 : min K (data.length - off) < K := by omega
        simp only [hshort, if_true, h2]
      · have h2 : ¬ min K (data.length - off) < K := by omega
        simp only [hshort, if_false, h2]
        have hlen : ((data.drop off).take K).length = K := by
          simp only [List.length_take, List.length_drop]; omega
        rw [PerformDecryption_block K dec _ hK hlen]
        cases hdec : dec ((data.drop off).take K) with
        | none =>
          simp only [List.append_nil]
          rw [ih _ _ _ (by omega), List.drop_drop]
        | some m =>
          by_cases hm : m.length ≤ K
          · simp only [hm, if_true]
            rw [ih _ _ _ (by omega), List.drop_drop]
          · simp only [hm, if_false]
    · simp only [hlt, if_false]
      rw [List.drop_eq_nil_of_le (by omega), chunks_nil]
      rfl

theorem DecryptWithPrivateKey_eq (K : Nat) (hK : 0 < K) (dec : Primitive) (data : Bytes) :
    DecryptWithPrivateKey K dec data = decryptBlocks K dec (chunks K data) [] [] := by
  unfold DecryptWithPrivateKey
  rw [DecryptWithPrivateKey_loop_eq K hK dec data _ _ _ _ (by omega)]
  rfl

/-- Induction along the slicing of a byte sequence into `B`-byte pieces. -/
theorem chunks_induction (B : Nat) (hB : 0 < B) (P : Bytes → Prop)
    (hnil : P []) (hstep : ∀ l : Bytes, l ≠ [] → P (l.drop B) → P l) : ∀ l, P l := by
  have key : ∀ (n : Nat) (l : Bytes), l.length = n → P l := by
    intro n
    induction n using Nat.strong_induction_on with
    | _ n ih =>
      intro l hn
      by_cases hl : l = []
      · subst hl; exact hnil
      · apply hstep l hl
        have hpos : 0 < l.length := List.length_pos.mpr hl
        exact ih (l.drop B).length (by simp only [List.length_drop]; omega) _ rfl
  exact fun l => key _ l rfl

theorem chunks_join (B : Nat) (hB : 0 < B) (l : Bytes) : (chunks B l).flatten = l := by
  induction l using chunks_induction B hB with
  | hnil => rfl
  | hstep l hl ih =>
    rw [chunks_of_ne_nil B hB l hl, List.flatten_cons, ih, List.take_append_drop]

theorem chunks_bounds (B : Nat) (hB : 0 < B) (l : Bytes) :
    ∀ s ∈ chunks B l, 1 ≤ s.length ∧ s.length ≤ B := by
  induction l using chunks_induction B hB with
  | hnil => intro s hs; simp [chunks_nil] at hs
  | hstep l hl ih =>
    intro s hs
    rw [chunks_of_ne_nil B hB l hl, List.mem_cons] at hs
    rcases hs with rfl | hs
    · have hpos : 0 < l.length := List.length_pos.mpr hl
      simp only [List.length_take]
      omega
    · exact ih s hs

theorem chunks_length (B : Nat) (hB : 0 < B) (l : Bytes) :
    (chunks B l).length = (l.length + B - 1) / B := by
  induction l using chunks_induction B hB with
  | hnil =>
    rw [chunks_nil]
    simp only [List.length_nil, Nat.zero_add]
    exact (Nat.div_eq_of_lt (by omega)).symm
  | hstep l hl ih =>
    have hpos : 0 < l.length := List.length_pos.mpr hl
    rw [chunks_of_ne_nil B hB l hl, List.length_cons, ih, List.length_drop]
    by_cases h : B ≤ l.length
    · have : l.length + B - 1 = (l.length - B + B - 1) + B := by omega
      rw [this, Nat.add_div_right _ hB]
    · have h1 : l.length - B + B - 1 < B := by omega
      have h2 : l.length + B - 1 = (l.length - 1) + B := by omega
      rw [Nat.div_eq_of_lt h1, h2, Nat.add_div_right _ hB, Nat.div_eq_of_lt (by omega)]

theorem chunks_join_blocks (K : Nat) (hK : 0 < K) (cs : List Bytes)
    (hcs : ∀ c ∈ cs, c.length = K) : chunks K cs.flatten = cs := by
  induction cs with
  | nil => rfl
  | cons c cs ih =>
    have hc : c.length = K := hcs c (List.mem_cons_self _ _)
    have hne : (c :: cs).flatten ≠ [] := by
      intro h
      have := congrArg List.length h
      rw [List.flatten_cons, List.length_append, List.length_nil] at this
      omega
    rw [chunks_of_ne_nil K hK _ hne, List.flatten_cons, List.take_left' hc, List.drop_left' hc,
      ih (fun x hx => hcs x (List.mem_cons_of_mem _ hx))]

theorem chunks_aligned (K : Nat) (hK : 0 < K) (l : Bytes) :
    l.length % K = 0 → ∀ s ∈ chunks K l, s.length = K := by
  induction l using chunks_induction K hK with
  | hnil => intro _ s hs; simp [chunks_nil] at hs
  | hstep l hl ih =>
    intro hmod s hs
    have hpos : 0 < l.length := List.length_pos.mpr hl
    have hge : K ≤ l.length := Nat.le_of_dvd hpos (Nat.dvd_of_mod_eq_zero hmod)
    rw [chunks_of_ne_nil K hK l hl, List.mem_cons] at hs
    rcases hs with rfl | hs
    · simp only [List.length_take]; omega
    · apply ih _ s hs
      rw [List.length_drop]
      exact (Nat.dvd_sub' (Nat.dvd_of_mod_eq_zero hmod) (dvd_refl K)).elim
        (fun k hk => by rw [hk]; exact Nat.mul_mod_right K k)

theorem encryptBlocks_fit (K : Nat) (enc : Primitive) :
    ∀ (blocks : List Bytes) (acc : Bytes) (calls : List Bytes),
      (∀ s ∈ blocks, ∀ c, enc s = some c → c.length ≤ K) →
      encryptBlocks K enc blocks acc calls =
        ⟨.done (acc ++ (blocks.map (blockOutput enc)).flatten), calls ++ blocks⟩ := by
  intro blocks
  induction blocks with
  | nil => intro acc calls _; simp [encryptBlocks]
  | cons s rest ih =>
    intro acc calls hfit
    have hrest : ∀ x ∈ rest, ∀ c, enc x = some c → c.length ≤ K :=
      fun x hx => hfit x (List.mem_cons_of_mem _ hx)
    unfold encryptBlocks
    cases henc : enc s with
    | none =>
      simp only
      rw [ih _ _ hrest]
      simp [blockOutput, henc]
    | some c =>
      have hc : c.length ≤ K := hfit s (List.mem_cons_self _ _) c henc
      simp only [hc, if_true]
      rw [ih _ _ hrest]
      simp [blockOutput, henc]

theorem encryptBlocks_calls (K : Nat) (enc : Primitive) :
    ∀ (blocks : List Bytes) (acc : Bytes) (calls : List Bytes),
      ∀ s ∈ (encryptBlocks K enc blocks acc calls).calls, s ∈ calls ∨ s ∈ blocks := by
  intro blocks
  induction blocks with
  | nil => intro acc calls s hs; exact Or.inl hs
  | cons b rest ih =>
    intro acc calls s hs
    unfold encryptBlocks at hs
    cases henc : enc b with
    | none =>
      rw [henc] at hs
      rcases ih _ _ s hs with h | h
      · rcases List.mem_append.mp h with h | h
        · exact Or.inl h
        · exact Or.inr (by rw [List.mem_singleton.mp h]; exact List.mem_cons_self _ _)
      · exact Or.inr (List.mem_cons_of_mem _ h)
    | some c =>
      rw [henc] at hs
      by_cases hc : c.length ≤ K
      · simp only [hc, if_true] at hs
        rcases ih _ _ s hs with h | h
        · rcases List.mem_append.mp h with h | h
          · exact Or.inl h
          · exact Or.inr (by rw [List.mem_singleton.mp h]; exact List.mem_cons_self _ _)
        · exact Or.inr (List.mem_cons_of_mem _ h)
      · simp only [hc, if_false] at hs
        rcases List.mem_append.mp hs with h | h
        · exact Or.inl h
        · exact Or.inr (by rw [List.mem_singleton.mp h]; exact List.mem_cons_self _ _)

theorem decryptBlocks_fit (K : Nat) (dec : Primitive) :
    ∀ (blocks : List Bytes) (acc : Bytes) (calls : List Bytes),
      (∀ s ∈ blocks, s.length = K) →
      (∀ s ∈ blocks, ∀ m, dec s = some m → m.length ≤ K) →
      decryptBlocks K dec blocks acc calls =
        ⟨.done (acc ++ (blocks.map (blockOutput dec)).flatten), calls ++ blocks⟩ := by
  intro blocks
  induction blocks with
  | nil => intro acc calls _ _; simp [decryptBlocks]
  | cons s rest ih =>
    intro acc calls hlen hfit
    have hrest : ∀ x ∈ rest, ∀ c, dec x = some c → c.length ≤ K :=
      fun x hx => hfit x (List.mem_cons_of_mem _ hx)
    have hlrest : ∀ x ∈ rest, x.length = K := fun x hx => hlen x (List.mem_cons_of_mem _ hx)
    have hs : ¬ s.length < K := by
      have := hlen s (List.mem_cons_self _ _)
      omega
    unfold decryptBlocks
    simp only [hs, if_false]
    cases hdec : dec s with
    | none =>
      simp only
      rw [ih _ _ hlrest hrest]
      simp [blockOutput, hdec]
    | some c =>
      have hc : c.length ≤ K := hfit s (List.mem_cons_self _ _) c hdec
      simp only [hc, if_true]
      rw [ih _ _ hlrest hrest]
      simp [blockOutput, hdec]

theorem decryptBlocks_calls (K : Nat) (dec : Primitive) :
    ∀ (blocks : List Bytes) (acc : Bytes) (calls : List Bytes),
      ∀ s ∈ (decryptBlocks K dec blocks acc calls).calls,
        s ∈ calls ∨ (s ∈ blocks ∧ K ≤ s.length) := by
  intro blocks
  induction blocks with
  | nil => intro acc calls s hs; exact Or.inl hs
  | cons b rest ih =>
    intro acc calls s hs
    unfold decryptBlocks at hs
    by_cases hb : b.length < K
    · simp only [hb, if_true] at hs
      exact Or.inl hs
    · simp only [hb, if_false] at hs
      have hlast : ∀ x, x ∈ calls ++ [b] → x ∈ calls ∨ (x ∈ b :: rest ∧ K ≤ x.length) := by
        intro x hx
        rcases List.mem_append.mp hx with h | h
        · exact Or.inl h
        · rw [List.mem_singleton.mp h]
          exact Or.inr ⟨List.mem_cons_self _ _, by omega⟩
      cases hdec : dec b with
      | none =>
        rw [hdec] at hs
        rcases ih _ _ s hs with h | h
        · exact hlast s h
        · exact Or.inr ⟨List.mem_cons_of_mem _ h.1, h.2⟩
      | some c =>
        rw [hdec] at hs
        by_cases hc : c.length ≤ K
        · simp only [hc, if_true] at hs
          rcases ih _ _ s hs with h | h
          · exact hlast s h
          · exact Or.inr ⟨List.mem_cons_of_mem _ h.1, h.2⟩
        · simp only [hc, if_false] at hs
          exact hlast s hs

theorem decryptBlocks_unaligned (K : Nat) (hK : 0 < K) (dec : Primitive) (l : Bytes) :
    l.length % K ≠ 0 → ∀ (acc : Bytes) (calls : List Bytes),
      (decryptBlocks K dec (chunks K l) acc calls).out = .outOfBounds := by
  induction l using chunks_induction K hK with
  | hnil => intro h; simp at h
  | hstep l hl ih =>
    intro hmod acc calls
    rw [chunks_of_ne_nil K hK l hl]
    unfold decryptBlocks
    by_cases hshort : l.length < K
    · have : (l.take K).length < K := by simp only [List.length_take]; omega
      simp only [this, if_true]
    · have : ¬ (l.take K).length < K := by simp only [List.length_take]; omega
      simp only [this, if_false]
      have hmod2 : (l.drop K).length % K ≠ 0 := by
        rw [List.length_drop]
        intro h
        apply hmod
        have h3 : l.length = (l.length - K) + K := by omega
        rw [h3, Nat.add_mod_right]
        exact h
      cases hdec : dec (l.take K) with
      | none => exact ih hmod2 _ _
      | some c =>
        by_cases hc : c.length ≤ K
        · simp only [hc, if_true]
          exact ih hmod2 _ _
        · simp only [hc, if_false]

/-- A buffer whose length is not a multiple of `RSA_size` makes the chunk
loop of `DecryptWithPrivateKey` build an iterator range that ends beyond the
buffer. -/
theorem DecryptWithPrivateKey_unaligned (K : Nat) (hK : 0 < K) (dec : Primitive) (d : Bytes)
    (h : d.length % K ≠ 0) : (DecryptWithPrivateKey K dec d).out = .outOfBounds := by
  rw [DecryptWithPrivateKey_eq K hK]
  exact decryptBlocks_unaligned K hK dec d h [] []

/-- On a buffer whose length is a multiple of `RSA_size` the decrypt loop
returns the concatenation of what each block contributes and hands the
primitive exactly the consecutive `RSA_size`-byte slices. -/
theorem DecryptWithPrivateKey_aligned (K : Nat) (hK : 0 < K) (dec : Primitive) (d : Bytes)
    (h : d.length % K = 0) (hfit : ∀ s m, dec s = some m → m.length ≤ K) :
    DecryptWithPrivateKey K dec d =
      ⟨.done ((chunks K d).map (blockOutput dec)).flatten, chunks K d⟩ := by
  rw [DecryptWithPrivateKey_eq K hK,
    decryptBlocks_fit K dec _ _ _ (chunks_aligned K hK d h) (fun s _ => hfit s)]
  simp

/-- With a primitive whose output always fits the `RSA_size`-byte buffer the
encrypt loop returns the concatenation of what each block contributes and
hands the primitive exactly the consecutive slices of the input. -/
theorem EncryptWithPublicKey_fit (K : Nat) (hK : 42 < K) (enc : Primitive) (p : Bytes)
    (hfit : ∀ s ∈ chunks (K - 42) p, ∀ c, enc s = some c → c.length ≤ K) :
    EncryptWithPublicKey K enc p =
      ⟨.done ((chunks (K - 42) p).map (blockOutput enc)).flatten, chunks (K - 42) p⟩ := by
  rw [EncryptWithPublicKey_eq K hK, encryptBlocks_fit K enc _ _ _ hfit]
  simp

theorem streamLoop_eof (transform : Bytes → Run Bytes) (W fuel : Nat) (rest written : Bytes)
    (calls : List Bytes) :
    streamLoop transform W fuel rest true written calls = ⟨.returned, written, calls⟩ := by
  cases fuel <;> simp [streamLoop]

theorem streamLoop_eq (transform : Bytes → Run Bytes) (W : Nat) (hW : 0 < W) :
    ∀ (fuel : Nat) (rest written : Bytes) (calls : List Bytes),
      rest.length < fuel →
      streamLoop transform W fuel rest false written calls =
        transformWindows transform (chunks W rest) written calls := by
  intro fuel
  induction fuel with
  | zero => intro rest written calls h; omega
  | succ fuel ih =>
    intro rest written calls hfuel
    unfold streamLoop
    simp only [Bool.false_eq_true, if_false]
    by_cases hrest : rest = []
    · subst hrest
      simp only [List.take_nil, List.length_nil, lt_self_iff_false, if_false, hW,
        decide_True, List.drop_nil]
      rw [streamLoop_eof, chunks_nil]
      rfl
    · have hpos : 0 < rest.length := List.length_pos.mpr hrest
      have htake : 0 < (rest.take W).length := by simp only [List.length_take]; omega
      simp only [htake, if_true]
      rw [chunks_of_ne_nil W hW rest hrest]
      have hnext : ∀ (w : Bytes) (c : List Bytes),
          streamLoop transform W fuel (rest.drop W) (decide (rest.length < W)) w c =
            transformWindows transform (chunks W (rest.drop W)) w c := by
        intro w c
        by_cases hlt : rest.length < W
        · simp only [hlt, decide_True]
          rw [streamLoop_eof, List.drop_eq_nil_of_le (by omega), chunks_nil]
          rfl
        · simp only [hlt, decide_False]
          exact ih _ _ _ (by simp only [List.length_drop]; omega)
      simp only [transformWindows]
      cases hout : (transform (rest.take W)).out with
      | done t => exact hnext _ _
      | outOfBounds => rfl
      | badRange => rfl
      | nullKey => rfl
      | outOfFuel => rfl

theorem streamFile_eq (transform : Bytes → Run Bytes) (W : Nat) (hW : 0 < W) (content : Bytes) :
    streamFile transform W ⟨some content, true, true⟩ =
      transformWindows transform (chunks W content) [] [] := by
  unfold streamFile
  simp only [if_true]
  exact streamLoop_eq transform W hW _ _ _ _ (by omega)

theorem resize_length (v : Bytes) (n : Nat) : (resize v n).length = n := by
  simp only [resize, List.length_append, List.length_take, List.length_replicate]
  omega

theorem toyEnc_length (K : Nat) (b : Bytes) :
    ∃ c, toyEnc K b = some c ∧ c.length = K :=
  ⟨_, rfl, resize_length _ _⟩

theorem toyDec_toyEnc (K : Nat) (b : Bytes) (h1 : b.length < K) (h2 : b.length < 256) :
    ∃ c, toyEnc K b = some c ∧ c.length = K ∧ toyDec c = some b := by
  refine ⟨_, rfl, resize_length _ _, ?_⟩
  have hv : (Fin.ofNat b.length : Fin 256).val = b.length := by
    show b.length % 256 = b.length
    exact Nat.mod_eq_of_lt h2
  have htake : List.take K (Fin.ofNat b.length :: b) = Fin.ofNat b.length :: b :=
    List.take_of_length_le (by simp only [List.length_cons]; omega)
  simp only [resize, htake, List.cons_append, toyDec, hv, List.take_left']

theorem flatten_length_of_forall (K : Nat) (cs : List Bytes) (h : ∀ c ∈ cs, c.length = K) :
    cs.flatten.length = K * cs.length := by
  induction cs with
  | nil => rfl
  | cons c cs ih =>
    rw [List.flatten_cons, List.length_append, h c (List.mem_cons_self _ _),
      ih (fun x hx => h x (List.mem_cons_of_mem _ hx)), List.length_cons, Nat.mul_succ]
    omega

theorem flatten_map_eq_self (f : Bytes → Bytes) (l : List Bytes) (h : ∀ x ∈ l, f x = x) :
    (l.map f).flatten = l.flatten := by
  rw [List.map_congr_left h]
  simp

theorem transformWindows_done (transform : Bytes → Run Bytes) (f : Bytes → Bytes)
    (g : Bytes → List Bytes) :
    ∀ (ws : List Bytes) (written : Bytes) (calls : List Bytes),
      (∀ w ∈ ws, transform w = ⟨.done (f w), g w⟩) →
      transformWindows transform ws written calls =
        ⟨.returned, written ++ (ws.map f).flatten, calls ++ (ws.map g).flatten⟩ := by
  intro ws
  induction ws with
  | nil => intro written calls _; simp [transformWindows]
  | cons w ws ih =>
    intro written calls h
    unfold transformWindows
    rw [h w (List.mem_cons_self _ _)]
    simp only
    rw [ih _ _ (fun x hx => h x (List.mem_cons_of_mem _ hx))]
    simp [List.append_assoc]

theorem flatten_map_flatten_map (e : Bytes → Bytes) (xss : List (List Bytes)) :
    (xss.map (fun xs => (xs.map e).flatten)).flatten = (xss.flatten.map e).flatten := by
  induction xss with
  | nil => rfl
  | cons xs xss ih => simp [ih]

theorem chunks_append_of_dvd (B : Nat) (hB : 0 < B) (y : Bytes) (x : Bytes) :
    B ∣ x.length → chunks B (x ++ y) = chunks B x ++ chunks B y := by
  induction x using chunks_induction B hB with
  | hnil => intro _; simp [chunks_nil]
  | hstep x hx ih =>
    intro hdvd
    have hpos : 0 < x.length := List.length_pos.mpr hx
    have hge : B ≤ x.length := Nat.le_of_dvd hpos hdvd
    have hne : x ++ y ≠ [] := by
      intro h
      exact hx (List.append_eq_nil.mp h).1
    have hd : B ∣ (x.drop B).length := by
      rw [List.length_drop]
      exact Nat.dvd_sub' hdvd (dvd_refl B)
    rw [chunks_of_ne_nil B hB _ hne, chunks_of_ne_nil B hB _ hx, List.take_append_of_le_length hge,
      List.drop_append_of_le_length hge, ih hd, List.cons_append]

theorem streamBlocks_eq_chunks (B W : Nat) (hB : 0 < B) (hW : 0 < W) (p : Bytes) :
    (B ∣ W ∨ p.length ≤ W) → streamBlocks B W p = chunks B p := by
  unfold streamBlocks
  induction p using chunks_induction W hW with
  | hnil => intro _; simp [chunks_nil]
  | hstep p hp ih =>
    intro h
    rw [chunks_of_ne_nil W hW p hp, List.map_cons, List.flatten_cons]
    by_cases hle : p.length ≤ W
    · rw [List.take_of_length_le hle, List.drop_eq_nil_of_le hle, chunks_nil]
      simp
    · have hdvd : B ∣ W := by
        rcases h with h | h
        · exact h
        · exact absurd h hle
      have hlen : (p.take W).length = W := by simp only [List.length_take]; omega
      rw [ih (Or.inl hdvd), ← chunks_append_of_dvd B hB _ _ (by rw [hlen]; exact hdvd),
        List.take_append_drop]

theorem mem_streamBlocks (B W : Nat) (p w s : Bytes) (hw : w ∈ chunks W p)
    (hs : s ∈ chunks B w) : s ∈ streamBlocks B W p :=
  List.mem_flatten.mpr ⟨chunks B w, List.mem_map.mpr ⟨w, hw, rfl⟩, hs⟩

/-- `EncryptFileWith` on an existing file with a public key whose primitive's
output fits the `RSA_size`-byte buffer: the operation returns, and what it
writes is the concatenation of the block outputs over the blocks of the
windows. -/
theorem EncryptFileWith_fit (K : Nat) (hK : 42 < K) (enc : Primitive) (W : Nat) (hW : 0 < W)
    (s : Session) (hs : s.public_key_ = some ⟨K, enc⟩) (p : Bytes)
    (hfit : ∀ b ∈ streamBlocks (K - 42) W p, ∀ c, enc b = some c → c.length ≤ K) :
    EncryptFileWith W s ⟨some p, true, true⟩ =
      ⟨.returned, ((streamBlocks (K - 42) W p).map (blockOutput enc)).flatten,
        streamBlocks (K - 42) W p⟩ := by
  unfold EncryptFileWith
  rw [streamFile_eq _ W hW, hs,
    transformWindows_done (encryptWithHandle (some ⟨K, enc⟩))
      (fun w => ((chunks (K - 42) w).map (blockOutput enc)).flatten)
      (fun w => chunks (K - 42) w) _ _ _
      (fun w hw => EncryptWithPublicKey_fit K hK enc w
        (fun b hb => hfit b (mem_streamBlocks _ _ p w b hw hb)))]
  have h := flatten_map_flatten_map (blockOutput enc) ((chunks W p).map (chunks (K - 42)))
  rw [List.map_map] at h
  simp only [List.nil_append, streamBlocks]
  rw [← h]
  rfl

/-- `DecryptFileWith` on a file that fills the first read window, when the
window size is not a multiple of `RSA_size`: the first window already ends
the run out of bounds, before anything is written. -/
theorem DecryptFileWith_misaligned (K : Nat) (hK : 0 < K) (dec : Primitive) (W : Nat)
    (hW : 0 < W) (hmis : W % K ≠ 0) (s : Session) (hs : s.private_key_ = some ⟨K, dec⟩)
    (c : Bytes) (hc : W ≤ c.length) :
    (DecryptFileWith W s ⟨some c, true, true⟩).status = .outOfBounds ∧
    (DecryptFileWith W s ⟨some c, true, true⟩).written = [] := by
  have hne : c ≠ [] := by
    intro h
    rw [h] at hc
    simp at hc
    omega
  have hlen : (c.take W).length = W := by simp only [List.length_take]; omega
  have hout : (decryptWithHandle (some ⟨K, dec⟩) (c.take W)).out = .outOfBounds :=
    DecryptWithPrivateKey_unaligned K hK dec _ (by rw [hlen]; exact hmis)
  unfold DecryptFileWith
  rw [streamFile_eq _ W hW, hs, chunks_of_ne_nil W hW c hne]
  simp only [transformWindows, hout, and_self]

theorem streamBlocks_of_ne_nil (B W : Nat) (hW : 0 < W) (p : Bytes) (hp : p ≠ []) :
    streamBlocks B W p = chunks B (p.take W) ++ streamBlocks B W (p.drop W) := by
  unfold streamBlocks
  rw [chunks_of_ne_nil W hW p hp, List.map_cons, List.flatten_cons]

theorem streamBlocks_length_two (B W : Nat) (hB : 0 < B) (hW : 0 < W) (p : Bytes)
    (h1 : W < p.length) (h2 : p.length ≤ 2 * W) :
    (streamBlocks B W p).length = (W + B - 1) / B + (p.length - W + B - 1) / B := by
  have hp : p ≠ [] := List.ne_nil_of_length_pos (by omega)
  have hd : p.drop W ≠ [] := List.ne_nil_of_length_pos (by rw [List.length_drop]; omega)
  have hdd : (p.drop W).drop W = [] :=
    List.drop_eq_nil_of_le (by rw [List.length_drop]; omega)
  have htl : (p.take W).length = W := by simp only [List.length_take]; omega
  have hdl : ((p.drop W).take W).length = p.length - W := by
    simp only [List.length_take, List.length_drop]; omega
  rw [streamBlocks_of_ne_nil B W hW p hp, streamBlocks_of_ne_nil B W hW _ hd, hdd]
  simp only [streamBlocks, chunks_nil, List.map_nil, List.flatten_nil, List.append_nil,
    List.length_append, chunks_length B hB, htl, hdl]

theorem toyEnc_fit (K : Nat) : ∀ b c, toyEnc K b = some c → c.length ≤ K := by
  intro b c h
  obtain ⟨c2, h1, h2⟩ := toyEnc_length K b
  rw [h1] at h
  cases h
  omega

theorem blockOutput_toyEnc_length (K : Nat) (b : Bytes) :
    (blockOutput (toyEnc K) b).length = K := by
  obtain ⟨c2, h1, h2⟩ := toyEnc_length K b
  simp only [blockOutput, h1, Option.getD_some, h2]

theorem streamBlocks_flatten (B W : Nat) (hB : 0 < B) (hW : 0 < W) (p : Bytes) :
    (streamBlocks B W p).flatten = p := by
  unfold streamBlocks
  induction p using chunks_induction W hW with
  | hnil => simp [chunks_nil]
  | hstep p hp ih =>
    rw [chunks_of_ne_nil W hW p hp, List.map_cons, List.flatten_cons, List.flatten_append, ih,
      chunks_join B hB, List.take_append_drop]

theorem streamBlocks_bounds (B W : Nat) (hB : 0 < B) (p : Bytes) :
    ∀ s ∈ streamBlocks B W p, 1 ≤ s.length ∧ s.length ≤ B := by
  intro s hs
  unfold streamBlocks at hs
  obtain ⟨l, hl, hsl⟩ := List.mem_flatten.mp hs
  obtain ⟨w, _, rfl⟩ := List.mem_map.mp hl
  exact chunks_bounds B hB w s hsl

theorem flatten_length_le (B : Nat) (l : List Bytes) (h : ∀ s ∈ l, s.length ≤ B) :
    l.flatten.length ≤ B * l.length := by
  induction l with
  | nil => simp
  | cons a l ih =>
    rw [List.flatten_cons, List.length_append, List.length_cons, Nat.mul_succ]
    have h1 := h a (List.mem_cons_self _ _)
    have h2 := ih (fun x hx => h x (List.mem_cons_of_mem _ hx))
    omega

/-! ## Buffer-level results -/

/-- Exact reading of the sizes: for every key size `K > 42` and every primitive pair such that, on
every block `b` of `1` to `K - 42` bytes, `enc b` succeeds with exactly `K`
bytes and `dec (enc b) = b`, `EncryptWithPublicKey` returns a ciphertext on
every byte sequence `p` (the empty one included) and `DecryptWithPrivateKey`
returns `p` on that ciphertext. -/
theorem buffer_round_trip_exact (K : Nat) (hK : 42 < K) (enc dec : Primitive)
    (hpair : ∀ b : Bytes, 1 ≤ b.length → b.length ≤ K - 42 →
      ∃ c, enc b = some c ∧ c.length = K ∧ dec c = some b)
    (p : Bytes) :
    ∃ c, (EncryptWithPublicKey K enc p).out = .done c ∧
      (DecryptWithPrivateKey K dec c).out = .done p := by
  have hB : 0 < K - 42 := by omega
  have hblk : ∀ s ∈ chunks (K - 42) p,
      ∃ c, enc s = some c ∧ c.length = K ∧ dec c = some s := fun s hs =>
    hpair s (chunks_bounds _ hB p s hs).1 (chunks_bounds _ hB p s hs).2
  have hfit : ∀ s ∈ chunks (K - 42) p, ∀ c, enc s = some c → c.length ≤ K := by
    intro s hs c hc
    obtain ⟨c2, h1, h2, _⟩ := hblk s hs
    rw [h1] at hc
    cases hc
    omega
  refine ⟨_, by rw [EncryptWithPublicKey_fit K hK enc p hfit], ?_⟩
  have hlen : ∀ c ∈ (chunks (K - 42) p).map (blockOutput enc), c.length = K := by
    intro c hc
    obtain ⟨s, hs, rfl⟩ := List.mem_map.mp hc
    obtain ⟨c2, h1, h2, _⟩ := hblk s hs
    simp only [blockOutput, h1, Option.getD_some, h2]
  have hdfit : ∀ c ∈ (chunks (K - 42) p).map (blockOutput enc),
      ∀ m, dec c = some m → m.length ≤ K := by
    intro c hc m hm
    obtain ⟨s, hs, rfl⟩ := List.mem_map.mp hc
    obtain ⟨c2, h1, _, h3⟩ := hblk s hs
    have hb := (chunks_bounds _ hB p s hs).2
    simp only [blockOutput, h1, Option.getD_some, h3] at hm
    cases hm
    omega
  rw [DecryptWithPrivateKey_eq K (by omega), chunks_join_blocks K (by omega) _ hlen,
    decryptBlocks_fit K dec _ _ _ hlen hdfit]
  simp only [List.nil_append, List.map_map]
  rw [flatten_map_eq_self, chunks_join _ hB]
  intro s hs
  obtain ⟨c2, h1, _, h3⟩ := hblk s hs
  simp only [Function.comp, blockOutput, h1, Option.getD_some, h3]

/-- Exact reading of the sizes: for every key size `K > 42`, a primitive that succeeds with
exactly `K` bytes on every block of `1` to `K - 42` bytes, and every byte
sequence `p`, `EncryptWithPublicKey` returns a ciphertext of length
`K * ceil(|p| / (K - 42))` when `|p| > 0` and of length `0` when `|p| = 0`. -/
theorem ciphertext_length_law_exact (K : Nat) (hK : 42 < K) (enc : Primitive)
    (henc : ∀ b : Bytes, 1 ≤ b.length → b.length ≤ K - 42 →
      ∃ c, enc b = some c ∧ c.length = K)
    (p : Bytes) :
    ∃ c, (EncryptWithPublicKey K enc p).out = .done c ∧
      (p.length = 0 → c.length = 0) ∧
      (0 < p.length → c.length = K * ((p.length + (K - 42) - 1) / (K - 42))) := by
  have hB : 0 < K - 42 := by omega
  have hblk : ∀ s ∈ chunks (K - 42) p, ∃ c, enc s = some c ∧ c.length = K := fun s hs =>
    henc s (chunks_bounds _ hB p s hs).1 (chunks_bounds _ hB p s hs).2
  have hfit : ∀ s ∈ chunks (K - 42) p, ∀ c, enc s = some c → c.length ≤ K := by
    intro s hs c hc
    obtain ⟨c2, h1, h2⟩ := hblk s hs
    rw [h1] at hc
    cases hc
    omega
  have hlen : ∀ c ∈ (chunks (K - 42) p).map (blockOutput enc), c.length = K := by
    intro c hc
    obtain ⟨s, hs, rfl⟩ := List.mem_map.mp hc
    obtain ⟨c2, h1, h2⟩ := hblk s hs
    simp only [blockOutput, h1, Option.getD_some, h2]
  have htotal := flatten_length_of_forall K _ hlen
  rw [List.length_map, chunks_length _ hB] at htotal
  refine ⟨_, by rw [EncryptWithPublicKey_fit K hK enc p hfit], ?_, fun _ => htotal⟩
  intro h0
  rw [htotal, h0, Nat.zero_add, Nat.div_eq_of_lt (by omega), Nat.mul_zero]

/-- C4: the code has no truncation check.  For every key size `K > 0` and
every ciphertext buffer whose length is not a multiple of `K`, the chunk loop
of `DecryptWithPrivateKey` reaches the trailing partial slice and builds the
range `[data_offset, data_offset + K)`, which ends beyond the buffer: the run
ends out of bounds instead of reporting a truncated input. -/
theorem truncated_buffer_out_of_bounds (K : Nat) (hK : 0 < K) (dec : Primitive) (d : Bytes)
    (h : d.length % K ≠ 0) :
    (DecryptWithPrivateKey K dec d).out = Outcome.outOfBounds :=
  DecryptWithPrivateKey_unaligned K hK dec d h

theorem truncated_buffer_out_of_bounds_witness :
    (List.replicate 10000 (0 : Byte)).length % 256 ≠ 0 ∧
    (DecryptWithPrivateKey 256 toyDec (List.replicate 10000 0)).out = Outcome.outOfBounds :=
  ⟨by rw [List.length_replicate]; decide,
    truncated_buffer_out_of_bounds 256 (by decide) toyDec (List.replicate 10000 0)
      (by rw [List.length_replicate]; decide)⟩

/-- C6: for every key size `K > 42`, every primitive and every byte sequence
`p`, each slice that `EncryptWithPublicKey` hands (through
`PerformEncryption`) to the encrypt primitive has at least `1` and at most
`K - 42` bytes. -/
theorem encrypt_slice_bounds (K : Nat) (hK : 42 < K) (enc : Primitive) (p : Bytes) :
    ∀ s ∈ (EncryptWithPublicKey K enc p).calls, 1 ≤ s.length ∧ s.length ≤ K - 42 := by
  intro s hs
  rw [EncryptWithPublicKey_eq K hK] at hs
  rcases encryptBlocks_calls K enc _ _ _ s hs with h | h
  · simp at h
  · exact chunks_bounds (K - 42) (by omega) p s h

theorem encrypt_slice_bounds_witness :
    (EncryptWithPublicKey 44 (toyEnc 44) [1, 2, 3]).calls = [[1, 2], [3]] ∧
    (1 ≤ ([3] : Bytes).length ∧ ([3] : Bytes).length ≤ 44 - 42) :=
  ⟨by decide, encrypt_slice_bounds 44 (by decide) (toyEnc 44) [1, 2, 3] [3] (by decide)⟩

/-- C7: every slice the decrypt loop hands to the primitive has exactly `K`
bytes, but on a buffer whose length is not a multiple of `K > 0` the loop
goes on to build the chunk range `[data_offset, data_offset + K)` for the
trailing partial slice, which is not inside the buffer: the run ends out of
bounds. -/
theorem decrypt_chunk_range_leaves_buffer (K : Nat) (hK : 0 < K) (dec : Primitive) (d : Bytes)
    (h : d.length % K ≠ 0) :
    (∀ s ∈ (DecryptWithPrivateKey K dec d).calls, s.length = K ∧ s ∈ chunks K d) ∧
    (DecryptWithPrivateKey K dec d).out = Outcome.outOfBounds := by
  refine ⟨?_, DecryptWithPrivateKey_unaligned K hK dec d h⟩
  intro s hs
  rw [DecryptWithPrivateKey_eq K hK] at hs
  rcases decryptBlocks_calls K dec _ _ _ s hs with h1 | ⟨h1, h2⟩
  · simp at h1
  · exact ⟨Nat.le_antisymm (chunks_bounds K hK d s h1).2 h2, h1⟩

theorem decrypt_chunk_range_leaves_buffer_witness :
    DecryptWithPrivateKey 4 toyDec [2, 7, 8, 0, 1, 9] = ⟨Outcome.outOfBounds, [[2, 7, 8, 0]]⟩ ∧
    (DecryptWithPrivateKey 256 toyDec (List.replicate 10000 0)).out = Outcome.outOfBounds :=
  ⟨by decide, (decrypt_chunk_range_leaves_buffer 256 (by decide) toyDec (List.replicate 10000 0)
    (by rw [List.length_replicate]; decide)).2⟩

/-- Exact reading of the sizes: for every key size `K > 42`, every primitive whose output
fits the `K`-byte buffer and every byte sequence `p`, `EncryptWithPublicKey`
returns normally even if the primitive signals failure on some blocks: the
result is the in-order concatenation of the ciphertexts of the blocks on
which the primitive succeeded, a failing block contributing no bytes. -/
theorem encrypt_failure_skips_block_exact (K : Nat) (hK : 42 < K) (enc : Primitive)
    (hfit : ∀ b c, enc b = some c → c.length ≤ K) (p : Bytes) :
    (EncryptWithPublicKey K enc p).out =
      Outcome.done ((chunks (K - 42) p).map (blockOutput enc)).flatten ∧
    (∀ s, enc s = none → blockOutput enc s = []) ∧
    (∀ s c, enc s = some c → blockOutput enc s = c) := by
  refine ⟨?_, ?_, ?_⟩
  · rw [EncryptWithPublicKey_fit K hK enc p (fun s _ => hfit s)]
  · intro s h
    simp only [blockOutput, h, Option.getD_none]
  · intro s c h
    simp only [blockOutput, h, Option.getD_some]

/-! ## File-level results -/

/-- With `K = 256` and the window size `10000`, a `10058`-byte file is written
as `48` ciphertext blocks while the whole-buffer call returns `47`. -/
theorem EncryptFile_two_windows (p : Bytes) (hlen : p.length = 10058) :
    (EncryptFile (toySession 256) ⟨some p, true, true⟩).status = FileStatus.returned ∧
    (EncryptFile (toySession 256) ⟨some p, true, true⟩).written.length = 12288 ∧
    ∃ c, (EncryptWithPublicKey 256 (toyEnc 256) p).out = .done c ∧ c.length = 12032 := by
  have hfile := EncryptFileWith_fit 256 (by decide) (toyEnc 256) 10000 (by decide)
    (toySession 256) rfl p (fun b _ => toyEnc_fit 256 b)
  have hcount := streamBlocks_length_two 214 10000 (by decide) (by decide)
    p (by rw [hlen]; decide) (by rw [hlen]; decide)
  rw [hlen] at hcount
  have hwhole := EncryptWithPublicKey_fit 256 (by decide) (toyEnc 256) p
    (fun b _ => toyEnc_fit 256 b)
  have hall : ∀ (l : List Bytes), ∀ c ∈ l.map (blockOutput (toyEnc 256)), c.length = 256 := by
    intro l c hc
    obtain ⟨b, _, rfl⟩ := List.mem_map.mp hc
    exact blockOutput_toyEnc_length 256 b
  unfold EncryptFile
  rw [hfile, hwhole]
  refine ⟨rfl, ?_, _, rfl, ?_⟩
  · show (List.map (blockOutput (toyEnc 256)) (streamBlocks 214 10000 p)).flatten.length = 12288
    rw [flatten_length_of_forall 256 _ (hall _), List.length_map, hcount]
  · show (List.map (blockOutput (toyEnc 256)) (chunks 214 p)).flatten.length = 12032
    rw [flatten_length_of_forall 256 _ (hall _), List.length_map,
      chunks_length _ (by decide), hlen]

/-- Exact reading of the sizes: for every key size `K > 42`, every primitive whose output
fits the `K`-byte buffer, every window size `W ≥ 1` and every file content
`p` such that `W` is a multiple of `K - 42` or `p` fits in one window
(`|p| ≤ W`), `EncryptFileWith W` returns and the bytes it writes are exactly
the result of `EncryptWithPublicKey` applied once to the whole of `p` (and
the primitive receives the same slices in the same order). -/
theorem streaming_equivalence_aligned_exact (K : Nat) (hK : 42 < K) (enc : Primitive)
    (hfit : ∀ b c, enc b = some c → c.length ≤ K) (W : Nat) (hW : 1 ≤ W) (p : Bytes)
    (hal : (K - 42) ∣ W ∨ p.length ≤ W) (s : Session) (hs : s.public_key_ = some ⟨K, enc⟩) :
    ∃ c, EncryptWithPublicKey K enc p = ⟨Outcome.done c, chunks (K - 42) p⟩ ∧
      EncryptFileWith W s ⟨some p, true, true⟩ =
        ⟨FileStatus.returned, c, chunks (K - 42) p⟩ := by
  refine ⟨_, EncryptWithPublicKey_fit K hK enc p (fun b _ => hfit b), ?_⟩
  rw [EncryptFileWith_fit K hK enc W hW s hs p (fun b _ => hfit b),
    streamBlocks_eq_chunks (K - 42) W (by omega) hW p hal]

/-- C2: the streamed file round trip breaks on every file of more than `8346`
bytes under a `256`-byte key.  `EncryptFile` returns and writes at least
`40` ciphertext blocks (`10240` bytes); the first `10000`-byte read window
of `DecryptFile` then holds `39` blocks and `16` more bytes, so
`DecryptWithPrivateKey` builds a chunk range that leaves the buffer: the run
ends out of bounds and no plaintext byte has been written. -/
theorem file_round_trip_out_of_bounds (enc dec : Primitive)
    (henc : ∀ b : Bytes, 1 ≤ b.length → b.length ≤ 256 - 42 →
      ∃ c, enc b = some c ∧ c.length = 256)
    (sE sD : Session) (hE : sE.public_key_ = some ⟨256, enc⟩)
    (hD : sD.private_key_ = some ⟨256, dec⟩) (p : Bytes) (hp : 8346 < p.length) :
    (EncryptFile sE ⟨some p, true, true⟩).status = FileStatus.returned ∧
    10000 ≤ (EncryptFile sE ⟨some p, true, true⟩).written.length ∧
    (DecryptFile sD ⟨some (EncryptFile sE ⟨some p, true, true⟩).written, true, true⟩).status
      = FileStatus.outOfBounds ∧
    (DecryptFile sD ⟨some (EncryptFile sE ⟨some p, true, true⟩).written, true, true⟩).written
      = [] := by
  have hblk : ∀ b ∈ streamBlocks (256 - 42) 10000 p, ∃ c, enc b = some c ∧ c.length = 256 :=
    fun b hb => henc b (streamBlocks_bounds _ 10000 (by decide) p b hb).1
      (streamBlocks_bounds _ 10000 (by decide) p b hb).2
  have hfit : ∀ b ∈ streamBlocks (256 - 42) 10000 p, ∀ c, enc b = some c → c.length ≤ 256 := by
    intro b hb c hc
    obtain ⟨c2, h1, h2⟩ := hblk b hb
    rw [h1] at hc
    cases hc
    omega
  have hfile := EncryptFileWith_fit 256 (by decide) enc 10000 (by decide) sE hE p hfit
  have hall : ∀ c ∈ (streamBlocks (256 - 42) 10000 p).map (blockOutput enc),
      c.length = 256 := by
    intro c hc
    obtain ⟨b, hb, rfl⟩ := List.mem_map.mp hc
    obtain ⟨c2, h1, h2⟩ := hblk b hb
    simp only [blockOutput, h1, Option.getD_some, h2]
  have hcount : p.length ≤ (256 - 42) * (streamBlocks (256 - 42) 10000 p).length := by
    have := flatten_length_le (256 - 42) (streamBlocks (256 - 42) 10000 p)
      (fun b hb => (streamBlocks_bounds _ 10000 (by decide) p b hb).2)
    rwa [streamBlocks_flatten _ 10000 (by decide) (by decide)] at this
  have hlen : 10000 ≤
      ((streamBlocks (256 - 42) 10000 p).map (blockOutput enc)).flatten.length := by
    rw [flatten_length_of_forall 256 _ hall, List.length_map]
    omega
  unfold EncryptFile DecryptFile
  rw [hfile]
  have hdec := DecryptFileWith_misaligned 256 (by decide) dec 10000 (by decide) (by decide)
    sD hD _ hlen
  exact ⟨rfl, hlen, hdec.1, hdec.2⟩

theorem file_round_trip_out_of_bounds_witness :
    (8346 < (List.replicate 8347 (0 : Byte)).length) ∧
    (DecryptFile (toySession 256)
      ⟨some (EncryptFile (toySession 256) ⟨some (List.replicate 8347 0), true, true⟩).written,
        true, true⟩).status = FileStatus.outOfBounds :=
  ⟨by rw [List.length_replicate]; decide,
    (file_round_trip_out_of_bounds (toyEnc 256) toyDec (fun b _ _ => toyEnc_length 256 b)
      (toySession 256) (toySession 256) rfl rfl (List.replicate 8347 0)
      (by rw [List.length_replicate]; decide)).2.2.1⟩

/-! ## Reference slicing and empty input -/

theorem chunks_dropLast (B : Nat) (hB : 0 < B) (l : Bytes) :
    ∀ s ∈ (chunks B l).dropLast, s.length = B := by
  induction l using chunks_induction B hB with
  | hnil => intro s hs; simp [chunks_nil] at hs
  | hstep l hl ih =>
    intro s hs
    rw [chunks_of_ne_nil B hB l hl] at hs
    by_cases hrest : l.drop B = []
    · rw [hrest, chunks_nil] at hs
      simp at hs
    · have hne : chunks B (l.drop B) ≠ [] := by
        rw [chunks_of_ne_nil B hB _ hrest]
        exact List.cons_ne_nil _ _
      rw [List.dropLast_cons_of_ne_nil hne, List.mem_cons] at hs
      rcases hs with rfl | hs
      · have hlen : 0 < (l.drop B).length := List.length_pos.mpr hrest
        rw [List.length_drop] at hlen
        simp only [List.length_take]
        omega
      · exact ih s hs

theorem chunks_map_length_500 (p : Bytes) (hp : p.length = 500) :
    (chunks 214 p).map List.length = [214, 214, 72] := by
  have h0 : p ≠ [] := List.ne_nil_of_length_pos (by omega)
  have h1 : p.drop 214 ≠ [] := List.ne_nil_of_length_pos (by rw [List.length_drop]; omega)
  have h2 : (p.drop 214).drop 214 ≠ [] :=
    List.ne_nil_of_length_pos (by rw [List.length_drop, List.length_drop]; omega)
  have h3 : ((p.drop 214).drop 214).drop 214 = [] :=
    List.drop_eq_nil_of_le (by rw [List.length_drop, List.length_drop]; omega)
  rw [chunks_of_ne_nil 214 (by decide) p h0, chunks_of_ne_nil 214 (by decide) _ h1,
    chunks_of_ne_nil 214 (by decide) _ h2, h3, chunks_nil]
  simp only [List.map_cons, List.map_nil, List.length_take, List.length_drop, hp]
  rfl

/-- Exact reading of the sizes: for every key size `K > 42`, every primitive whose output fits the
`K`-byte buffer and every byte sequence `p`, the slices `s_1, ..., s_n` that
`EncryptWithPublicKey` hands to the primitive, in order, concatenate to `p`,
all but the last have exactly `K - 42` bytes and the last has between `1` and
`K - 42` bytes; the result is the in-order concatenation of the primitive's
outputs on `s_1, ..., s_n` (a call that returns `-1` has no output bytes). -/
theorem encrypt_buffer_reference_exact (K : Nat) (hK : 42 < K) (enc : Primitive)
    (hfit : ∀ b c, enc b = some c → c.length ≤ K) (p : Bytes) :
    (EncryptWithPublicKey K enc p).calls.flatten = p ∧
    (∀ s ∈ (EncryptWithPublicKey K enc p).calls.dropLast, s.length = K - 42) ∧
    (∀ s ∈ (EncryptWithPublicKey K enc p).calls.getLast?,
      1 ≤ s.length ∧ s.length ≤ K - 42) ∧
    (EncryptWithPublicKey K enc p).out =
      Outcome.done (((EncryptWithPublicKey K enc p).calls.map (blockOutput enc)).flatten) ∧
    (∀ s c, enc s = some c → blockOutput enc s = c) := by
  have hB : 0 < K - 42 := by omega
  rw [EncryptWithPublicKey_fit K hK enc p (fun s _ => hfit s)]
  refine ⟨chunks_join _ hB p, chunks_dropLast _ hB p, ?_, rfl, ?_⟩
  · intro s hs
    exact chunks_bounds _ hB p s (List.mem_of_mem_getLast? hs)
  · intro s c h
    simp only [blockOutput, h, Option.getD_some]

/-- C12: for every key size `K` and every primitive, `EncryptWithPublicKey` on
the zero-length byte sequence returns the zero-length byte sequence and makes
no call to the encrypt primitive; `DecryptWithPrivateKey` on the zero-length
sequence likewise returns it with no call to the decrypt primitive. -/
theorem empty_input (K : Nat) (enc dec : Primitive) :
    EncryptWithPublicKey K enc [] = ⟨Outcome.done [], []⟩ ∧
    DecryptWithPrivateKey K dec [] = ⟨Outcome.done [], []⟩ :=
  ⟨rfl, rfl⟩

/-! ## Key handle release -/

/-! ## Streaming and decryption -/

/-- Decrypting the concatenation of the ciphertexts of a list of blocks gives
back the concatenation of the blocks, when on each block the primitive pair
round-trips with a `K`-byte ciphertext. -/
theorem decrypt_encrypted_blocks (K : Nat) (hK : 0 < K) (enc dec : Primitive)
    (bs : List Bytes)
    (hpair : ∀ b ∈ bs, b.length ≤ K ∧ ∃ c, enc b = some c ∧ c.length = K ∧ dec c = some b) :
    DecryptWithPrivateKey K dec ((bs.map (blockOutput enc)).flatten) =
      ⟨.done bs.flatten, bs.map (blockOutput enc)⟩ := by
  have hlen : ∀ c ∈ bs.map (blockOutput enc), c.length = K := by
    intro c hc
    obtain ⟨b, hb, rfl⟩ := List.mem_map.mp hc
    obtain ⟨_, c2, h1, h2, _⟩ := hpair b hb
    simp only [blockOutput, h1, Option.getD_some, h2]
  have hdfit : ∀ c ∈ bs.map (blockOutput enc), ∀ m, dec c = some m → m.length ≤ K := by
    intro c hc m hm
    obtain ⟨b, hb, rfl⟩ := List.mem_map.mp hc
    obtain ⟨hle, c2, h1, _, h3⟩ := hpair b hb
    simp only [blockOutput, h1, Option.getD_some, h3] at hm
    cases hm
    exact hle
  rw [DecryptWithPrivateKey_eq K hK, chunks_join_blocks K hK _ hlen,
    decryptBlocks_fit K dec _ _ _ hlen hdfit]
  simp only [List.nil_append, List.map_map]
  rw [flatten_map_eq_self]
  intro b hb
  obtain ⟨_, c2, h1, _, h3⟩ := hpair b hb
  simp only [Function.comp, blockOutput, h1, Option.getD_some, h3]

/-- What `EncryptFileWith` writes is the concatenation, window by window, of
the results of `EncryptWithPublicKey` on the consecutive windows. -/
theorem EncryptFileWith_written (K : Nat) (hK : 42 < K) (enc : Primitive) (W : Nat)
    (hW : 0 < W) (s : Session) (hs : s.public_key_ = some ⟨K, enc⟩) (p : Bytes)
    (hfit : ∀ b ∈ streamBlocks (K - 42) W p, ∀ c, enc b = some c → c.length ≤ K) :
    (EncryptFileWith W s ⟨some p, true, true⟩).written =
      ((chunks W p).map (fun w => (EncryptWithPublicKey K enc w).out.bytes)).flatten := by
  have hwin : ∀ w ∈ chunks W p, (EncryptWithPublicKey K enc w).out.bytes =
      ((chunks (K - 42) w).map (blockOutput enc)).flatten := by
    intro w hw
    rw [EncryptWithPublicKey_fit K hK enc w
      (fun b hb => hfit b (mem_streamBlocks _ _ p w b hw hb))]
    rfl
  rw [EncryptFileWith_fit K hK enc W hW s hs p hfit, List.map_congr_left hwin]
  have h := flatten_map_flatten_map (blockOutput enc) ((chunks W p).map (chunks (K - 42)))
  rw [List.map_map] at h
  show (List.map (blockOutput enc) (streamBlocks (K - 42) W p)).flatten = _
  unfold streamBlocks
  rw [← h]
  rfl

/-- Exact reading of the sizes: for every key size `K > 42`, every window size `W ≥ 1`, every
primitive pair such that on every block `b` of `1` to `K - 42` bytes `enc b`
has exactly `K` bytes and `dec (enc b) = b`, and every content `p`,
`EncryptFileWith W` returns, the bytes it writes are the concatenation of
`EncryptWithPublicKey` over the consecutive `W`-byte windows of `p`, and one
call of `DecryptWithPrivateKey` on all of those bytes returns `p`. -/
theorem streamed_ciphertext_decrypts_exact (K : Nat) (hK : 42 < K) (W : Nat) (hW : 1 ≤ W)
    (enc dec : Primitive)
    (hpair : ∀ b : Bytes, 1 ≤ b.length → b.length ≤ K - 42 →
      ∃ c, enc b = some c ∧ c.length = K ∧ dec c = some b)
    (p : Bytes) (s : Session) (hs : s.public_key_ = some ⟨K, enc⟩) :
    (EncryptFileWith W s ⟨some p, true, true⟩).status = FileStatus.returned ∧
    (EncryptFileWith W s ⟨some p, true, true⟩).written =
      ((chunks W p).map (fun w => (EncryptWithPublicKey K enc w).out.bytes)).flatten ∧
    (DecryptWithPrivateKey K dec (EncryptFileWith W s ⟨some p, true, true⟩).written).out =
      Outcome.done p := by
  have hB : 0 < K - 42 := by omega
  have hblk : ∀ b ∈ streamBlocks (K - 42) W p,
      b.length ≤ K ∧ ∃ c, enc b = some c ∧ c.length = K ∧ dec c = some b := by
    intro b hb
    have hbd := streamBlocks_bounds _ W hB p b hb
    exact ⟨by omega, hpair b hbd.1 hbd.2⟩
  have hfit : ∀ b ∈ streamBlocks (K - 42) W p, ∀ c, enc b = some c → c.length ≤ K := by
    intro b hb c hc
    obtain ⟨_, c2, h1, h2, _⟩ := hblk b hb
    rw [h1] at hc
    cases hc
    omega
  refine ⟨?_, EncryptFileWith_written K hK enc W hW s hs p hfit, ?_⟩
  · rw [EncryptFileWith_fit K hK enc W hW s hs p hfit]
  · rw [EncryptFileWith_fit K hK enc W hW s hs p hfit]
    show (DecryptWithPrivateKey K dec
      (List.map (blockOutput enc) (streamBlocks (K - 42) W p)).flatten).out = _
    rw [decrypt_encrypted_blocks K (by omega) enc dec _ hblk,
      streamBlocks_flatten _ W hB hW p]

theorem chunks_windows_aligned (K W : Nat) (hW : 0 < W) (hdvd : K ∣ W) (c : Bytes) :
    K ∣ c.length → ∀ w ∈ chunks W c, K ∣ w.length := by
  induction c using chunks_induction W hW with
  | hnil => intro _ w hw; simp [chunks_nil] at hw
  | hstep c hc ih =>
    intro hlen w hw
    rw [chunks_of_ne_nil W hW c hc, List.mem_cons] at hw
    rcases hw with rfl | hw
    · rw [List.length_take]
      by_cases h : W ≤ c.length
      · rw [Nat.min_eq_left h]; exact hdvd
      · rw [Nat.min_eq_right (by omega)]; exact hlen
    · apply ih _ w hw
      rw [List.length_drop]
      exact Nat.dvd_sub' hlen hdvd

theorem DecryptWithPrivateKey_aligned_blocks (K : Nat) (hK : 0 < K) (dec : Primitive)
    (d : Bytes) (h : K ∣ d.length)
    (hfit : ∀ b : Bytes, b.length = K → ∀ m, dec b = some m → m.length ≤ K) :
    DecryptWithPrivateKey K dec d =
      ⟨.done ((chunks K d).map (blockOutput dec)).flatten, chunks K d⟩ := by
  have hall := chunks_aligned K hK d (Nat.mod_eq_zero_of_dvd h)
  rw [DecryptWithPrivateKey_eq K hK,
    decryptBlocks_fit K dec _ _ _ hall (fun b hb => hfit b (hall b hb))]
  simp

/-- `DecryptFileWith` with a window size that is a multiple of `RSA_size`, on
a file whose length is a multiple of `RSA_size`: the operation returns, and
it writes what one call on the whole content returns. -/
theorem DecryptFileWith_aligned (K : Nat) (hK : 0 < K) (dec : Primitive) (W : Nat) (hW : 0 < W)
    (hdvd : K ∣ W) (s : Session) (hs : s.private_key_ = some ⟨K, dec⟩) (c : Bytes)
    (hlen : K ∣ c.length)
    (hfit : ∀ b : Bytes, b.length = K → ∀ m, dec b = some m → m.length ≤ K) :
    DecryptFileWith W s ⟨some c, true, true⟩ =
      ⟨.returned, ((chunks K c).map (blockOutput dec)).flatten, chunks K c⟩ ∧
    (DecryptFileWith W s ⟨some c, true, true⟩).written =
      ((chunks W c).map (fun w => (DecryptWithPrivateKey K dec w).out.bytes)).flatten := by
  have hwin : ∀ w ∈ chunks W c, DecryptWithPrivateKey K dec w =
      ⟨.done ((chunks K w).map (blockOutput dec)).flatten, chunks K w⟩ := fun w hw =>
    DecryptWithPrivateKey_aligned_blocks K hK dec w
      (chunks_windows_aligned K W hW hdvd c hlen w hw) hfit
  have hbytes : ∀ w ∈ chunks W c, (DecryptWithPrivateKey K dec w).out.bytes =
      ((chunks K w).map (blockOutput dec)).flatten := by
    intro w hw
    rw [hwin w hw]
    rfl
  have h := flatten_map_flatten_map (blockOutput dec) ((chunks W c).map (chunks K))
  rw [List.map_map] at h
  have hsb := streamBlocks_eq_chunks K W hK hW c (Or.inl hdvd)
  unfold streamBlocks at hsb
  have hrun : DecryptFileWith W s ⟨some c, true, true⟩ =
      ⟨.returned, ((chunks K c).map (blockOutput dec)).flatten, chunks K c⟩ := by
    unfold DecryptFileWith
    rw [streamFile_eq _ W hW, hs,
      transformWindows_done (decryptWithHandle (some ⟨K, dec⟩))
        (fun w => ((chunks K w).map (blockOutput dec)).flatten)
        (fun w => chunks K w) _ _ _ hwin]
    simp only [List.nil_append]
    rw [← hsb, ← h]
    rfl
  refine ⟨hrun, ?_⟩
  rw [hrun, List.map_congr_left hbytes]
  show _ = (List.map ((fun xs => (List.map (blockOutput dec) xs).flatten) ∘ chunks K)
    (chunks W c)).flatten
  rw [h, hsb]

/-- Exact reading of the sizes: for every key size `K` that divides the read window size `10000`,
every decrypt primitive whose output fits the `K`-byte buffer and every
ciphertext `c` whose length is a multiple of `K`, `DecryptFile` returns, the
bytes it writes are the concatenation of `DecryptWithPrivateKey` over the
consecutive `10000`-byte windows of `c`, they equal the result of
`DecryptWithPrivateKey` applied once to the whole of `c`, and every slice
handed to the primitive has exactly `K` bytes. -/
theorem aligned_window_streaming_decrypt_exact (K : Nat) (hdiv : K ∣ 10000) (dec : Primitive)
    (hfit : ∀ b : Bytes, b.length = K → ∀ m, dec b = some m → m.length ≤ K)
    (c : Bytes) (hlen : c.length % K = 0) (s : Session)
    (hs : s.private_key_ = some ⟨K, dec⟩) :
    ∃ m, DecryptWithPrivateKey K dec c = ⟨Outcome.done m, chunks K c⟩ ∧
      DecryptFile s ⟨some c, true, true⟩ = ⟨FileStatus.returned, m, chunks K c⟩ ∧
      (DecryptFile s ⟨some c, true, true⟩).written =
        ((chunks 10000 c).map (fun w => (DecryptWithPrivateKey K dec w).out.bytes)).flatten ∧
      (∀ x ∈ (DecryptFile s ⟨some c, true, true⟩).calls, x.length = K) := by
  have hK : 0 < K := Nat.pos_of_dvd_of_pos hdiv (by decide)
  have hd : K ∣ c.length := Nat.dvd_of_mod_eq_zero hlen
  have hfile := DecryptFileWith_aligned K hK dec 10000 (by decide) hdiv s hs c hd hfit
  refine ⟨_, DecryptWithPrivateKey_aligned_blocks K hK dec c hd hfit, hfile.1, hfile.2, ?_⟩
  intro x hx
  have hcalls : (DecryptFile s ⟨some c, true, true⟩).calls = chunks K c := by
    show (DecryptFileWith 10000 s ⟨some c, true, true⟩).calls = _
    rw [hfile.1]
  rw [hcalls] at hx
  exact chunks_aligned K hK c hlen x hx

/-! ## Output buffer of `PerformEncryption` -/

theorem PerformEncryption_first_step (K : Nat) (hK : 42 < K) (enc : Primitive) (data : Bytes)
    (hlong : K - 42 < data.length) (c1 : Bytes) (h1 : enc (data.take (K - 42)) = some c1)
    (hc1 : c1.length = K) (n : Nat) :
    PerformEncryption.loop K enc data (n + 1) (List.replicate K 0) 0 0 [] =
      PerformEncryption.loop K enc data n (writeAt (List.replicate K 0) 0 c1) K (K - 42)
        [data.take (K - 42)] ∧
    PerformEncryption.writeOffsets K enc data (n + 1) K 0 0 =
      0 :: PerformEncryption.writeOffsets K enc data n K K (K - 42) := by
  have hpos : 0 < data.length := by omega
  have hbs := block_size_of_toNat K hK data.length 0
  have hnn := block_size_of_nonneg K hK ((data.length : Int) - (0 : Nat)) (by omega)
  have hmin : min (K - 42) (data.length - 0) = K - 42 := by omega
  rw [hmin] at hbs
  constructor
  · rw [PerformEncryption.loop]
    simp only [hpos, if_true, hnn, if_false, hbs, List.drop_zero, h1, Nat.zero_add, hc1,
      List.length_replicate, le_refl, List.nil_append]
  · rw [PerformEncryption.writeOffsets]
    simp only [hpos, if_true, hnn, if_false, hbs, List.drop_zero, h1, Nat.zero_add, hc1,
      le_refl]

theorem PerformEncryption_second_step (K : Nat) (hK : 42 < K) (enc : Primitive) (data : Bytes)
    (hlong : K - 42 < data.length) (henc : ∀ b c, enc b = some c → c.length = K)
    (buf : Bytes) (hbuf : buf.length = K) (calls : List Bytes) (n : Nat) :
    PerformEncryption.writeOffsets K enc data (n + 1) K K (K - 42) = [K] ∧
    ∀ c2, enc ((data.drop (K - 42)).take (K - 42)) = some c2 →
      (PerformEncryption.loop K enc data (n + 1) buf K (K - 42) calls).out = .outOfBounds := by
  have hbs := block_size_of_toNat K hK data.length (K - 42)
  have hnn := block_size_of_nonneg K hK ((data.length : Int) - ((K - 42 : Nat) : Int))
    (by omega)
  constructor
  · rw [PerformEncryption.writeOffsets]
    simp only [hlong, if_true, hnn, if_false]
    cases h2 : enc ((data.drop (K - 42)).take
        (block_size_of K ((data.length : Int) - ((K - 42 : Nat) : Int))).toNat) with
    | none => rfl
    | some c2 =>
      have hc2 := henc _ _ h2
      have : ¬ K + c2.length ≤ K := by omega
      simp only [this, if_false]
  · intro c2 h2
    rw [PerformEncryption.loop]
    simp only [hlong, if_true, hnn, if_false, hbs, take_min_drop, h2, hbuf]
    have hc2 := henc _ _ h2
    have : ¬ K + c2.length ≤ K := by omega
    simp only [this, if_false]

/-- C16: for every key size `K > 42` and a primitive that writes exactly `K`
bytes when it succeeds: on data of at most `K - 42` bytes `PerformEncryption`
makes at most one primitive call, every write offset into the `K`-byte
output buffer is `0` (so the `K`-byte write is in bounds), and on a
successful call the result is the primitive's output; on data of more than
`K - 42` bytes, after a successful first call the second call is given the
write offset `K`, the size of the buffer, and a successful second call ends
the run out of bounds. -/
theorem perform_encryption_buffer_index (K : Nat) (hK : 42 < K) (enc : Primitive)
    (henc : ∀ b c, enc b = some c → c.length = K) (data : Bytes) :
    (data.length ≤ K - 42 →
      (PerformEncryption K enc data).calls.length ≤ 1 ∧
      (∀ o ∈ PerformEncryption.callOffsets K enc data, o = 0) ∧
      (PerformEncryption K enc data).out ≠ Outcome.outOfBounds ∧
      (∀ c, data ≠ [] → enc data = some c →
        PerformEncryption K enc data = ⟨Outcome.done c, [data]⟩)) ∧
    (K - 42 < data.length → ∀ c1, enc (data.take (K - 42)) = some c1 →
      PerformEncryption.callOffsets K enc data = [0, K] ∧
      (List.replicate K (0 : Byte)).length = K ∧
      (∀ c2, enc ((data.drop (K - 42)).take (K - 42)) = some c2 →
        (PerformEncryption K enc data).out = Outcome.outOfBounds)) := by
  constructor
  · intro hshort
    by_cases hnil : data = []
    · subst hnil
      refine ⟨by simp [PerformEncryption, PerformEncryption.loop], ?_, ?_,
        fun c h => absurd rfl h⟩
      · intro o ho
        simp [PerformEncryption.callOffsets, PerformEncryption.writeOffsets] at ho
      · simp [PerformEncryption, PerformEncryption.loop]
    · have hle : (data.length : Int) ≤ input_block_size K := by
        unfold input_block_size padding_overhead
        omega
      have hblock := PerformEncryption_block K enc data hnil hle
      have hpos : 0 < data.length := List.length_pos.mpr hnil
      have hbs := block_size_of_small K data.length hle
      have hnn : ¬ ((data.length : Nat) : Int) < 0 := by omega
      have htake : List.take data.length data = data := List.take_of_length_le le_rfl
      have hoff : ∀ o ∈ PerformEncryption.callOffsets K enc data, o = 0 := by
        intro o ho
        unfold PerformEncryption.callOffsets at ho
        rw [PerformEncryption.writeOffsets] at ho
        simp only [hpos, if_true, hbs, hnn, if_false, Int.toNat_ofNat, List.drop_zero,
          htake, Nat.zero_add] at ho
        cases h : enc data with
        | none =>
          rw [h] at ho
          simpa using ho
        | some c =>
          rw [h] at ho
          simp only [henc _ _ h, le_refl, if_true, List.mem_cons] at ho
          rcases ho with ho | ho
          · exact ho
          · cases hl : data.length with
            | zero => omega
            | succ n =>
              rw [hl, PerformEncryption.writeOffsets] at ho
              simp only [hl, lt_self_iff_false, if_false, List.not_mem_nil] at ho
      cases h : enc data with
      | none =>
        rw [h] at hblock
        refine ⟨by rw [hblock]; simp, hoff, by rw [hblock]; simp, ?_⟩
        intro c _ hc
        cases hc
      | some c =>
        rw [h] at hblock
        have hc : c.length ≤ K := by rw [henc _ _ h]
        simp only [hc, if_true] at hblock
        refine ⟨by rw [hblock]; simp, hoff, by rw [hblock]; simp, ?_⟩
        intro c2 _ hc2
        cases hc2
        exact hblock
  · intro hlong c1 h1
    have hc1 := henc _ _ h1
    obtain ⟨n, hn⟩ : ∃ n, data.length = n + 1 := ⟨data.length - 1, by omega⟩
    have hfirst := PerformEncryption_first_step K hK enc data hlong c1 h1 hc1 (n + 1)
    have hbuf : (writeAt (List.replicate K 0) 0 c1).length = K := by
      simp only [writeAt, List.take_zero, List.nil_append, List.length_append, List.length_drop,
        List.length_replicate, Nat.zero_add]
      omega
    have hsecond := PerformEncryption_second_step K hK enc data hlong henc _ hbuf
      [data.take (K - 42)] n
    refine ⟨?_, List.length_replicate _ _, ?_⟩
    · unfold PerformEncryption.callOffsets
      rw [hn, hfirst.2, hsecond.1]
    · intro c2 h2
      unfold PerformEncryption
      rw [hn, hfirst.1]
      exact hsecond.2 c2 h2

theorem toyEnc_exact (K : Nat) : ∀ b c, toyEnc K b = some c → c.length = K := by
  intro b c h
  obtain ⟨c2, h1, h2⟩ := toyEnc_length K b
  rw [h1] at h
  cases h
  exact h2

/-- Witness of C16 at `K = 44` (blocks of `2` bytes): a two-byte input is
encrypted by one call, a three-byte input leads to a second call at write
offset `44`. -/
theorem perform_encryption_buffer_index_witness :
    PerformEncryption 44 (toyEnc 44) [1, 2] = ⟨Outcome.done (resize [2, 1, 2] 44), [[1, 2]]⟩ ∧
    PerformEncryption.callOffsets 44 (toyEnc 44) [1, 2, 3] = [0, 44] ∧
    (PerformEncryption 44 (toyEnc 44) [1, 2, 3]).out = Outcome.outOfBounds :=
  ⟨((perform_encryption_buffer_index 44 (by decide) (toyEnc 44) (toyEnc_exact 44) [1, 2]).1
      (by decide)).2.2.2 _ (by decide) rfl,
    ((perform_encryption_buffer_index 44 (by decide) (toyEnc 44) (toyEnc_exact 44) [1, 2, 3]).2
      (by decide) _ rfl).1,
    ((perform_encryption_buffer_index 44 (by decide) (toyEnc 44) (toyEnc_exact 44) [1, 2, 3]).2
      (by decide) _ rfl).2.2 _ rfl⟩

/-! ## Offsets of the encrypt chunk loop -/

theorem PerformEncryption_block_done (K : Nat) (enc : Primitive) (s : Bytes)
    (hs : s ≠ []) (hle : (s.length : Int) ≤ input_block_size K)
    (hfit : ∀ b c, enc b = some c → c.length ≤ K) :
    ∃ c, (PerformEncryption K enc s).out = .done c := by
  rw [PerformEncryption_block K enc s hs hle]
  cases h : enc s with
  | none => exact ⟨[], rfl⟩
  | some c =>
    have hc := hfit _ _ h
    simp only [hc, if_true]
    exact ⟨c, rfl⟩

theorem EncryptWithPublicKey_offsets_spec (K : Nat) (hK : 42 < K) (enc : Primitive)
    (hfit : ∀ b c, enc b = some c → c.length ≤ K) (p : Bytes) :
    ∀ (fuel off : Nat), off ≤ p.length → p.length - off < fuel →
      (EncryptWithPublicKey.offsets K enc p fuel off).head? = some off ∧
      (∀ o ∈ EncryptWithPublicKey.offsets K enc p fuel off, o ≤ p.length) ∧
      (EncryptWithPublicKey.offsets K enc p fuel off).Chain' (· < ·) ∧
      (EncryptWithPublicKey.offsets K enc p fuel off).length =
        (p.length - off + (K - 42) - 1) / (K - 42) + 1 ∧
      (EncryptWithPublicKey.offsets K enc p fuel off).getLast? = some p.length := by
  intro fuel
  induction fuel with
  | zero => intro off _ h; omega
  | succ fuel ih =>
    intro off hoff hfuel
    rw [EncryptWithPublicKey.offsets]
    by_cases hlt : off < p.length
    · have hbs := block_size_of_toNat K hK p.length off
      have hnn := block_size_of_nonneg K hK ((p.length : Int) - off) (by omega)
      have hne : (p.drop off).take (min (K - 42) (p.length - off)) ≠ [] := by
        intro h
        have := congrArg List.length h
        simp only [List.length_take, List.length_drop, List.length_nil] at this
        omega
      have hle : (((p.drop off).take (min (K - 42) (p.length - off))).length : Int)
          ≤ input_block_size K := by
        unfold input_block_size padding_overhead
        simp only [List.length_take, List.length_drop]
        omega
      obtain ⟨c, hc⟩ := PerformEncryption_block_done K enc _ hne hle hfit
      simp only [hlt, if_true, hnn, if_false, hbs, hc]
      obtain ⟨h1, h2, h3, h4, h5⟩ := ih (off + min (K - 42) (p.length - off))
        (by omega) (by omega)
      obtain ⟨y, ys, hys⟩ : ∃ y ys, EncryptWithPublicKey.offsets K enc p fuel
          (off + min (K - 42) (p.length - off)) = y :: ys := by
        cases hl : EncryptWithPublicKey.offsets K enc p fuel
            (off + min (K - 42) (p.length - off)) with
        | nil => rw [hl] at h1; cases h1
        | cons y ys => exact ⟨y, ys, rfl⟩
      rw [hys] at h1 h2 h3 h4 h5 ⊢
      simp only [List.head?_cons, Option.some.injEq] at h1
      refine ⟨rfl, ?_, ?_, ?_, ?_⟩
      · intro o ho
        rcases List.mem_cons.mp ho with rfl | ho
        · exact hoff
        · exact h2 o ho
      · exact List.chain'_cons.mpr ⟨by omega, h3⟩
      · rw [List.length_cons, h4]
        by_cases hB : K - 42 ≤ p.length - off
        · rw [Nat.min_eq_left hB]
          have e : p.length - off + (K - 42) - 1 =
              (p.length - (off + (K - 42)) + (K - 42) - 1) + (K - 42) := by omega
          rw [e, Nat.add_div_right _ (by omega)]
        · rw [Nat.min_eq_right (by omega)]
          have e1 : p.length - (off + (p.length - off)) + (K - 42) - 1 < K - 42 := by omega
          have e2 : p.length - off + (K - 42) - 1 = (p.length - off - 1) + (K - 42) := by omega
          rw [Nat.div_eq_of_lt e1, e2, Nat.add_div_right _ (by omega),
            Nat.div_eq_of_lt (by omega)]
      · rw [List.getLast?_cons_cons]
        exact h5
    · have hEq : off = p.length := by omega
      subst hEq
      simp only [lt_self_iff_false, if_false]
      refine ⟨rfl, ?_, List.chain'_singleton _, ?_, rfl⟩
      · intro o ho
        rw [List.mem_singleton.mp ho]
      · rw [Nat.sub_self, Nat.zero_add, Nat.div_eq_of_lt (by omega)]
        rfl

theorem EncryptWithPublicKey_stuck (enc : Primitive) (p : Bytes) (hp : p ≠ []) :
    ∀ (fuel : Nat) (acc : Bytes) (calls : List Bytes),
      EncryptWithPublicKey.loop 42 enc p fuel acc 0 calls = ⟨.outOfFuel, calls⟩ ∧
      EncryptWithPublicKey.offsets 42 enc p fuel 0 = List.replicate (fuel + 1) 0 := by
  have hpos : 0 < p.length := List.length_pos.mpr hp
  have hbs : block_size_of 42 ((p.length : Int) - ((0 : Nat) : Int)) = 0 := by
    unfold block_size_of input_block_size padding_overhead
    split <;> omega
  have hpe : PerformEncryption 42 enc [] = ⟨.done [], []⟩ := rfl
  intro fuel
  induction fuel with
  | zero =>
    intro acc calls
    constructor
    · rw [EncryptWithPublicKey.loop]
      simp only [hpos, if_true]
    · rfl
  | succ fuel ih =>
    intro acc calls
    constructor
    · rw [EncryptWithPublicKey.loop]
      simp only [hpos, if_true, hbs, lt_self_iff_false, if_false, Int.toNat_zero, List.take_zero,
        hpe, List.append_nil, Nat.add_zero]
      exact (ih acc calls).1
    · rw [EncryptWithPublicKey.offsets]
      simp only [hpos, if_true, hbs, lt_self_iff_false, if_false, Int.toNat_zero, List.take_zero,
        hpe, Nat.add_zero]
      rw [(ih acc calls).2]
      rfl

/-- Exact reading of the sizes: for every key size `K > 42`, every primitive whose output fits the
`K`-byte buffer and every byte sequence `p`, the values `data_offset` takes
at the successive evaluations of the loop condition of
`EncryptWithPublicKey` all lie between `0` and `|p|`, increase strictly, are
`ceil(|p| / (K - 42)) + 1` in number (one per iteration of the body and the
final, failing test) and end with `|p|`, and the function returns.  For
`K = 42` and non-empty `p` the computed block size is `0`, `data_offset`
stays `0` at every test and the loop is still running after any number of
iterations. -/
theorem encrypt_loop_offsets_exact (K : Nat) (enc : Primitive) (p : Bytes) :
    (42 < K → (∀ b c, enc b = some c → c.length ≤ K) →
      (∀ o ∈ EncryptWithPublicKey.offsets K enc p (p.length + 1) 0, 0 ≤ o ∧ o ≤ p.length) ∧
      (EncryptWithPublicKey.offsets K enc p (p.length + 1) 0).Chain' (· < ·) ∧
      (EncryptWithPublicKey.offsets K enc p (p.length + 1) 0).length =
        (p.length + (K - 42) - 1) / (K - 42) + 1 ∧
      (EncryptWithPublicKey.offsets K enc p (p.length + 1) 0).getLast? = some p.length ∧
      ∃ c, (EncryptWithPublicKey K enc p).out = Outcome.done c) ∧
    (p ≠ [] →
      (∀ off : Nat, off < p.length → block_size_of 42 ((p.length : Int) - off) = 0) ∧
      ∀ fuel : Nat,
        EncryptWithPublicKey.offsets 42 enc p fuel 0 = List.replicate (fuel + 1) 0 ∧
        (EncryptWithPublicKey.loop 42 enc p fuel [] 0 []).out = Outcome.outOfFuel) := by
  constructor
  · intro hK hfit
    obtain ⟨_, h2, h3, h4, h5⟩ :=
      EncryptWithPublicKey_offsets_spec K hK enc hfit p (p.length + 1) 0 (by omega) (by omega)
    refine ⟨fun o ho => ⟨Nat.zero_le o, h2 o ho⟩, h3, ?_, h5, ?_⟩
    · rw [h4, Nat.sub_zero]
    · exact ⟨_, by rw [EncryptWithPublicKey_fit K hK enc p (fun s _ => hfit s)]⟩
  · intro hp
    constructor
    · intro off hoff
      unfold block_size_of input_block_size padding_overhead
      split <;> omega
    · intro fuel
      have h := EncryptWithPublicKey_stuck enc p hp fuel [] []
      exact ⟨h.2, by rw [h.1]⟩

/-! ## The 32-bit reading and the exact reading -/

theorem toInt32_of_lt (n : Nat) (h : n < 2 ^ 31) : toInt32 n = (n : Int) := by
  have h1 : n % 2 ^ 32 = n := Nat.mod_eq_of_lt (by omega)
  unfold toInt32
  rw [h1, if_pos h]

theorem EncryptWithPublicKey32_loop_eq_exact (K : Nat) (enc : Primitive) (data : Bytes)
    (h : data.length < 2 ^ 31) :
    ∀ (fuel : Nat) (acc : Bytes) (off : Nat) (calls : List Bytes),
      EncryptWithPublicKey32.loop K enc data fuel acc off calls =
        EncryptWithPublicKey.loop K enc data fuel acc off calls := by
  have hsz := toInt32_of_lt data.length h
  intro fuel
  induction fuel with
  | zero =>
    intro acc off calls
    rw [EncryptWithPublicKey32.loop, EncryptWithPublicKey.loop, hsz]
    simp only [Nat.cast_lt]
  | succ fuel ih =>
    intro acc off calls
    rw [EncryptWithPublicKey32.loop, EncryptWithPublicKey.loop, hsz]
    simp only [Nat.cast_lt, ih]

/-- On a buffer of fewer than `2 ^ 31` bytes the 32-bit reading of
`EncryptWithPublicKey` is the exact one. -/
theorem EncryptWithPublicKey32_eq_exact (K : Nat) (enc : Primitive) (data : Bytes)
    (h : data.length < 2 ^ 31) :
    EncryptWithPublicKey32 K enc data = EncryptWithPublicKey K enc data :=
  EncryptWithPublicKey32_loop_eq_exact K enc data h _ _ _ _

theorem DecryptWithPrivateKey32_loop_eq_exact (K : Nat) (dec : Primitive) (data : Bytes)
    (h : data.length < 2 ^ 31) :
    ∀ (fuel : Nat) (acc : Bytes) (off : Nat) (calls : List Bytes),
      DecryptWithPrivateKey32.loop K dec data fuel acc off calls =
        DecryptWithPrivateKey.loop K dec data fuel acc off calls := by
  have hsz := toInt32_of_lt data.length h
  intro fuel
  induction fuel with
  | zero =>
    intro acc off calls
    rw [DecryptWithPrivateKey32.loop, DecryptWithPrivateKey.loop, hsz]
    simp only [Nat.cast_lt]
  | succ fuel ih =>
    intro acc off calls
    rw [DecryptWithPrivateKey32.loop, DecryptWithPrivateKey.loop, hsz]
    simp only [Nat.cast_lt, ih]

/-- On a buffer of fewer than `2 ^ 31` bytes the 32-bit reading of
`DecryptWithPrivateKey` is the exact one. -/
theorem DecryptWithPrivateKey32_eq_exact (K : Nat) (dec : Primitive) (data : Bytes)
    (h : data.length < 2 ^ 31) :
    DecryptWithPrivateKey32 K dec data = DecryptWithPrivateKey K dec data :=
  DecryptWithPrivateKey32_loop_eq_exact K dec data h _ _ _ _

theorem EncryptWithPublicKey32_offsets_eq_exact (K : Nat) (enc : Primitive) (data : Bytes)
    (h : data.length < 2 ^ 31) :
    ∀ (fuel off : Nat),
      EncryptWithPublicKey32.offsets K enc data fuel off =
        EncryptWithPublicKey.offsets K enc data fuel off := by
  have hsz := toInt32_of_lt data.length h
  intro fuel
  induction fuel with
  | zero => intro off; rfl
  | succ fuel ih =>
    intro off
    rw [EncryptWithPublicKey32.offsets, EncryptWithPublicKey.offsets, hsz]
    simp only [Nat.cast_lt, ih]

/-- A buffer whose size converts to a non-positive `int` (for instance
`2 ^ 31` bytes): the encrypt loop never runs. -/
theorem EncryptWithPublicKey32_wrap (K : Nat) (enc : Primitive) (data : Bytes)
    (h : toInt32 data.length ≤ 0) :
    EncryptWithPublicKey32 K enc data = ⟨.done [], []⟩ ∧
    EncryptWithPublicKey32.offsets K enc data (data.length + 1) 0 = [0] := by
  have hc : ¬ ((0 : Nat) : Int) < toInt32 data.length := by
    simp only [Nat.cast_zero]
    omega
  constructor
  · unfold EncryptWithPublicKey32
    rw [EncryptWithPublicKey32.loop]
    simp only [hc, if_false]
  · rw [EncryptWithPublicKey32.offsets]
    simp only [hc, if_false]

/-- A buffer whose size converts to a non-positive `int`: the decrypt loop
never runs. -/
theorem DecryptWithPrivateKey32_wrap (K : Nat) (dec : Primitive) (data : Bytes)
    (h : toInt32 data.length ≤ 0) :
    DecryptWithPrivateKey32 K dec data = ⟨.done [], []⟩ := by
  have hc : ¬ ((0 : Nat) : Int) < toInt32 data.length := by
    simp only [Nat.cast_zero]
    omega
  unfold DecryptWithPrivateKey32
  rw [DecryptWithPrivateKey32.loop]
  simp only [hc, if_false]

theorem toInt32_two_pow_31 : toInt32 (2 ^ 31) ≤ 0 := by decide

theorem le_mul_ceil (B n : Nat) (hB : 0 < B) : n ≤ B * ((n + B - 1) / B) := by
  have h := Nat.lt_mul_div_succ (n + B - 1) hB
  rw [Nat.mul_add, Nat.mul_one] at h
  generalize B * ((n + B - 1) / B) = X at h ⊢
  omega

theorem length_lt_of_ciphertext_lt (K : Nat) (hK : 42 < K) (n : Nat)
    (h : K * ((n + (K - 42) - 1) / (K - 42)) < 2 ^ 31) : n < 2 ^ 31 := by
  have h1 := le_mul_ceil (K - 42) n (by omega)
  have h2 : (K - 42) * ((n + (K - 42) - 1) / (K - 42)) ≤
      K * ((n + (K - 42) - 1) / (K - 42)) := Nat.mul_le_mul_right _ (by omega)
  omega

theorem reference_length_toy (K : Nat) (hK : 42 < K) (p : Bytes) :
    (((chunks (K - 42) p).map (blockOutput (toyEnc K))).flatten).length =
      K * ((p.length + (K - 42) - 1) / (K - 42)) := by
  rw [flatten_length_of_forall K _ (by
    intro c hc
    obtain ⟨b, _, rfl⟩ := List.mem_map.mp hc
    exact blockOutput_toyEnc_length K b), List.length_map, chunks_length _ (by omega)]

/-! ## Buffer-level results for the 32-bit reading -/

/-- C1, as the claim states it, fails: on a buffer of `2 ^ 31` bytes
`int data_size` is negative, `EncryptWithPublicKey` returns the empty vector
without a primitive call, and decrypting the empty vector returns the empty
vector, not the `2 ^ 31` input bytes (the toy pair of size `256` round-trips
every block of `1` to `214` bytes). -/
theorem buffer_round_trip_counterexample :
    EncryptWithPublicKey32 256 (toyEnc 256) (List.replicate (2 ^ 31) 0) = ⟨Outcome.done [], []⟩ ∧
    DecryptWithPrivateKey32 256 toyDec [] = ⟨Outcome.done [], []⟩ ∧
    (List.replicate (2 ^ 31) (0 : Byte)).length = 2 ^ 31 :=
  ⟨(EncryptWithPublicKey32_wrap 256 (toyEnc 256) _
      (by rw [List.length_replicate]; exact toInt32_two_pow_31)).1,
    rfl, List.length_replicate _ _⟩

/-- C1 (amended): for every key size `K > 42`, every primitive pair such that,
on every block `b` of `1` to `K - 42` bytes, `enc b` succeeds with exactly `K`
bytes and `dec (enc b) = b`, and every byte sequence `p` (the empty one
included) whose ciphertext length `K * ceil(|p| / (K - 42))` is below
`2 ^ 31`, `EncryptWithPublicKey` returns a ciphertext and
`DecryptWithPrivateKey` returns `p` on that ciphertext. -/
theorem buffer_round_trip (K : Nat) (hK : 42 < K) (enc dec : Primitive)
    (hpair : ∀ b : Bytes, 1 ≤ b.length → b.length ≤ K - 42 →
      ∃ c, enc b = some c ∧ c.length = K ∧ dec c = some b)
    (p : Bytes) (hlen : K * ((p.length + (K - 42) - 1) / (K - 42)) < 2 ^ 31) :
    ∃ c, (EncryptWithPublicKey32 K enc p).out = Outcome.done c ∧
      (DecryptWithPrivateKey32 K dec c).out = Outcome.done p := by
  have hp := length_lt_of_ciphertext_lt K hK p.length hlen
  obtain ⟨c, h1, h2⟩ := buffer_round_trip_exact K hK enc dec hpair p
  obtain ⟨c2, h3, h4, h5⟩ := ciphertext_length_law_exact K hK enc
    (fun b hb1 hb2 => (hpair b hb1 hb2).elim fun c hc => ⟨c, hc.1, hc.2.1⟩) p
  have hcc : c2 = c := by
    rw [h1] at h3
    injection h3 with h3
    exact h3.symm
  subst hcc
  have hc : c2.length < 2 ^ 31 := by
    by_cases h0 : p.length = 0
    · rw [h4 h0]; decide
    · rw [h5 (by omega)]; exact hlen
  exact ⟨c2, by rw [EncryptWithPublicKey32_eq_exact K enc p hp]; exact h1,
    by rw [DecryptWithPrivateKey32_eq_exact K dec c2 hc]; exact h2⟩

/-- Witness of C1 at `K = 256` on a `500`-byte input (three blocks). -/
theorem buffer_round_trip_witness :
    ∃ c, (EncryptWithPublicKey32 256 (toyEnc 256) (List.replicate 500 0)).out
        = Outcome.done c ∧
      (DecryptWithPrivateKey32 256 toyDec c).out = Outcome.done (List.replicate 500 0) :=
  buffer_round_trip 256 (by decide) (toyEnc 256) toyDec
    (fun b _ h2 => toyDec_toyEnc 256 b (by omega) (by omega)) (List.replicate 500 0)
    (by rw [List.length_replicate]; decide)

/-- C3, as the claim states it, fails in two ways.  A primitive that returns
exactly `K = 44` bytes on each successful call but `-1` on the block `[1, 2]`
makes `EncryptWithPublicKey` return `44` bytes for `[1, 2, 3]`, where the
length law gives `88`.  And on a buffer of `2 ^ 31` bytes `int data_size` is
negative and the result has `0` bytes, where the law gives
`256 * 10034971`. -/
theorem ciphertext_length_law_counterexample :
    ((∀ b c, pickyEnc 44 [1, 2] b = some c → c.length = 44) ∧
      (EncryptWithPublicKey32 44 (pickyEnc 44 [1, 2]) [1, 2, 3]).out
        = Outcome.done (resize [1, 3] 44) ∧
      (resize [1, 3] 44).length = 44 ∧
      44 * ((([1, 2, 3] : Bytes).length + (44 - 42) - 1) / (44 - 42)) = 88) ∧
    ((EncryptWithPublicKey32 256 (toyEnc 256) (List.replicate (2 ^ 31) 0)).out
        = Outcome.done [] ∧
      256 * ((2 ^ 31 + (256 - 42) - 1) / (256 - 42)) = 256 * 10034971) := by
  refine ⟨⟨?_, by decide, by decide, by decide⟩, ?_, by decide⟩
  · intro b c h
    unfold pickyEnc at h
    split at h
    · cases h
    · exact toyEnc_exact 44 b c h
  · rw [(EncryptWithPublicKey32_wrap 256 (toyEnc 256) _
      (by rw [List.length_replicate]; exact toInt32_two_pow_31)).1]

/-- C3 (amended): for every key size `K > 42`, a primitive that succeeds with
exactly `K` bytes on every block of `1` to `K - 42` bytes, and every byte
sequence `p` of fewer than `2 ^ 31` bytes, `EncryptWithPublicKey` returns a
ciphertext of length `K * ceil(|p| / (K - 42))` when `|p| > 0` and of length
`0` when `|p| = 0`. -/
theorem ciphertext_length_law (K : Nat) (hK : 42 < K) (enc : Primitive)
    (henc : ∀ b : Bytes, 1 ≤ b.length → b.length ≤ K - 42 →
      ∃ c, enc b = some c ∧ c.length = K)
    (p : Bytes) (hp : p.length < 2 ^ 31) :
    ∃ c, (EncryptWithPublicKey32 K enc p).out = Outcome.done c ∧
      (p.length = 0 → c.length = 0) ∧
      (0 < p.length → c.length = K * ((p.length + (K - 42) - 1) / (K - 42))) := by
  rw [EncryptWithPublicKey32_eq_exact K enc p hp]
  exact ciphertext_length_law_exact K hK enc henc p

/-- Witness of C3: `K = 256` and `500` bytes give `768` ciphertext bytes. -/
theorem ciphertext_length_law_witness :
    ∃ c, (EncryptWithPublicKey32 256 (toyEnc 256) (List.replicate 500 0)).out
        = Outcome.done c ∧ c.length = 768 := by
  have hlen : (List.replicate 500 (0 : Byte)).length = 500 := List.length_replicate _ _
  obtain ⟨c, h1, _, h3⟩ := ciphertext_length_law 256 (by decide) (toyEnc 256)
    (fun b _ _ => toyEnc_length 256 b) (List.replicate 500 0) (by rw [hlen]; decide)
  refine ⟨c, h1, ?_⟩
  rw [h3 (by rw [hlen]; decide), hlen]

theorem pickyEnc_fit (K : Nat) (bad : Bytes) :
    ∀ b c, pickyEnc K bad b = some c → c.length ≤ K := by
  intro b c h
  unfold pickyEnc at h
  split at h
  · cases h
  · exact toyEnc_fit K b c h

/-- C9, as the claim states it, fails: with `K = 44` (blocks of `2` bytes) and
a primitive that returns `-1` on the block `[1, 2]`, `EncryptWithPublicKey` on
`[1, 2, 3, 4]` returns, as an ordinary result, the ciphertext of the
remaining block `[3, 4]` alone.  On a buffer of `2 ^ 31` bytes
`int data_size` is negative and the result is empty with no call at all,
while the concatenation over the blocks has `256 * 10034971` bytes. -/
theorem encrypt_failure_counterexample :
    (pickyEnc 44 [1, 2] [1, 2] = none ∧
      pickyEnc 44 [1, 2] [3, 4] = some (resize [2, 3, 4] 44) ∧
      EncryptWithPublicKey32 44 (pickyEnc 44 [1, 2]) [1, 2, 3, 4] =
        ⟨Outcome.done (resize [2, 3, 4] 44), [[1, 2], [3, 4]]⟩) ∧
    (EncryptWithPublicKey32 256 (toyEnc 256) (List.replicate (2 ^ 31) 0)
        = ⟨Outcome.done [], []⟩ ∧
      (((chunks (256 - 42) (List.replicate (2 ^ 31) 0)).map
        (blockOutput (toyEnc 256))).flatten).length = 256 * 10034971) := by
  refine ⟨by decide, (EncryptWithPublicKey32_wrap 256 (toyEnc 256) _
    (by rw [List.length_replicate]; exact toInt32_two_pow_31)).1, ?_⟩
  rw [reference_length_toy 256 (by decide), List.length_replicate]
  decide

/-- C9 (amended): for every key size `K > 42`, every primitive whose output
fits the `K`-byte buffer and every byte sequence `p` of fewer than `2 ^ 31`
bytes, `EncryptWithPublicKey` returns normally even if the primitive signals
failure on some blocks: the result is the in-order concatenation of the
ciphertexts of the blocks on which the primitive succeeded, a failing block
contributing no bytes. -/
theorem encrypt_failure_skips_block (K : Nat) (hK : 42 < K) (enc : Primitive)
    (hfit : ∀ b c, enc b = some c → c.length ≤ K) (p : Bytes) (hp : p.length < 2 ^ 31) :
    (EncryptWithPublicKey32 K enc p).out =
      Outcome.done ((chunks (K - 42) p).map (blockOutput enc)).flatten ∧
    (∀ s, enc s = none → blockOutput enc s = []) ∧
    (∀ s c, enc s = some c → blockOutput enc s = c) := by
  rw [EncryptWithPublicKey32_eq_exact K enc p hp]
  exact encrypt_failure_skips_block_exact K hK enc hfit p

/-- Witness of C9 at `K = 44` with a primitive failing on the block `[1, 2]`. -/
theorem encrypt_failure_skips_block_witness :
    (EncryptWithPublicKey32 44 (pickyEnc 44 [1, 2]) [1, 2, 3, 4]).out =
      Outcome.done ((chunks (44 - 42) [1, 2, 3, 4]).map
        (blockOutput (pickyEnc 44 [1, 2]))).flatten :=
  (encrypt_failure_skips_block 44 (by decide) (pickyEnc 44 [1, 2]) (pickyEnc_fit 44 [1, 2])
    [1, 2, 3, 4] (by decide)).1

/-- C11, as the claim states it, fails: on a buffer of `2 ^ 31` bytes
`int data_size` is negative, the loop never runs, no slice is handed to the
primitive and the result is empty, so the slices do not concatenate to the
input. -/
theorem encrypt_buffer_reference_counterexample :
    (EncryptWithPublicKey32 256 (toyEnc 256) (List.replicate (2 ^ 31) 0)).calls.flatten = [] ∧
    (EncryptWithPublicKey32 256 (toyEnc 256) (List.replicate (2 ^ 31) 0)).out
      = Outcome.done [] ∧
    (List.replicate (2 ^ 31) (0 : Byte)).length = 2 ^ 31 := by
  rw [(EncryptWithPublicKey32_wrap 256 (toyEnc 256) _
    (by rw [List.length_replicate]; exact toInt32_two_pow_31)).1]
  exact ⟨rfl, rfl, List.length_replicate _ _⟩

/-- C11 (amended): for every key size `K > 42`, every primitive whose output
fits the `K`-byte buffer and every byte sequence `p` of fewer than `2 ^ 31`
bytes, the slices `s_1, ..., s_n` that `EncryptWithPublicKey` hands to the
primitive, in order, concatenate to `p`, all but the last have exactly
`K - 42` bytes and the last has between `1` and `K - 42` bytes; the result is
the in-order concatenation of the primitive's outputs on `s_1, ..., s_n` (a
call that returns `-1` has no output bytes). -/
theorem encrypt_buffer_reference (K : Nat) (hK : 42 < K) (enc : Primitive)
    (hfit : ∀ b c, enc b = some c → c.length ≤ K) (p : Bytes) (hp : p.length < 2 ^ 31) :
    (EncryptWithPublicKey32 K enc p).calls.flatten = p ∧
    (∀ s ∈ (EncryptWithPublicKey32 K enc p).calls.dropLast, s.length = K - 42) ∧
    (∀ s ∈ (EncryptWithPublicKey32 K enc p).calls.getLast?,
      1 ≤ s.length ∧ s.length ≤ K - 42) ∧
    (EncryptWithPublicKey32 K enc p).out =
      Outcome.done (((EncryptWithPublicKey32 K enc p).calls.map (blockOutput enc)).flatten) ∧
    (∀ s c, enc s = some c → blockOutput enc s = c) := by
  rw [EncryptWithPublicKey32_eq_exact K enc p hp]
  exact encrypt_buffer_reference_exact K hK enc hfit p

/-- Witness of C11 at `K = 256` on a `500`-byte input: the slices have `214`,
`214` and `72` bytes. -/
theorem encrypt_buffer_reference_witness :
    (EncryptWithPublicKey32 256 (toyEnc 256) (List.replicate 500 0)).calls.flatten
      = List.replicate 500 0 ∧
    (EncryptWithPublicKey32 256 (toyEnc 256) (List.replicate 500 0)).calls.map List.length
      = [214, 214, 72] := by
  have hlen : (List.replicate 500 (0 : Byte)).length < 2 ^ 31 := by
    rw [List.length_replicate]; decide
  refine ⟨(encrypt_buffer_reference 256 (by decide) (toyEnc 256) (toyEnc_fit 256)
    (List.replicate 500 0) hlen).1, ?_⟩
  rw [EncryptWithPublicKey32_eq_exact 256 _ _ hlen,
    EncryptWithPublicKey_fit 256 (by decide) (toyEnc 256) _ (fun s _ => toyEnc_fit 256 s)]
  exact chunks_map_length_500 _ (List.length_replicate _ _)

/-- C17, as the claim states it, fails: on a buffer of `2 ^ 31` bytes
`int data_size` is negative, so the loop condition is tested once with
`data_offset = 0` and fails: no iteration runs and `data_offset` ends at `0`,
where the claim gives `ceil(2 ^ 31 / 214) = 10034971` iterations ending at
`data_offset = 2 ^ 31`. -/
theorem encrypt_loop_offsets_counterexample :
    EncryptWithPublicKey32.offsets 256 (toyEnc 256) (List.replicate (2 ^ 31) 0)
      ((List.replicate (2 ^ 31) (0 : Byte)).length + 1) 0 = [0] ∧
    (List.replicate (2 ^ 31) (0 : Byte)).length = 2 ^ 31 ∧
    (2 ^ 31 + (256 - 42) - 1) / (256 - 42) = 10034971 :=
  ⟨(EncryptWithPublicKey32_wrap 256 (toyEnc 256) _
      (by rw [List.length_replicate]; exact toInt32_two_pow_31)).2,
    List.length_replicate _ _, by decide⟩

/-- C17 (amended): for every key size `K > 42`, every primitive whose output
fits the `K`-byte buffer and every byte sequence `p` of fewer than `2 ^ 31`
bytes, the values `data_offset` takes at the successive evaluations of the
loop condition of `EncryptWithPublicKey` all lie between `0` and `|p|`,
increase strictly, are `ceil(|p| / (K - 42)) + 1` in number (one per
iteration of the body and the final, failing test) and end with `|p|`; the
function returns, having made one primitive call per iteration.  For
`K = 42` and non-empty `p` of fewer than `2 ^ 31` bytes the computed block
size is `0`, `data_offset` stays `0` at every test and the loop is still
running after any number of iterations. -/
theorem encrypt_loop_offsets (K : Nat) (enc : Primitive) (p : Bytes) (hp : p.length < 2 ^ 31) :
    (42 < K → (∀ b c, enc b = some c → c.length ≤ K) →
      (∀ o ∈ EncryptWithPublicKey32.offsets K enc p (p.length + 1) 0, 0 ≤ o ∧ o ≤ p.length) ∧
      (EncryptWithPublicKey32.offsets K enc p (p.length + 1) 0).Chain' (· < ·) ∧
      (EncryptWithPublicKey32.offsets K enc p (p.length + 1) 0).length =
        (p.length + (K - 42) - 1) / (K - 42) + 1 ∧
      (EncryptWithPublicKey32.offsets K enc p (p.length + 1) 0).getLast? = some p.length ∧
      (∃ c, (EncryptWithPublicKey32 K enc p).out = Outcome.done c) ∧
      (EncryptWithPublicKey32 K enc p).calls.length + 1 =
        (EncryptWithPublicKey32.offsets K enc p (p.length + 1) 0).length) ∧
    (p ≠ [] →
      (∀ off : Nat, off < p.length → block_size_of 42 (toInt32 p.length - off) = 0) ∧
      ∀ fuel : Nat,
        EncryptWithPublicKey32.offsets 42 enc p fuel 0 = List.replicate (fuel + 1) 0 ∧
        (EncryptWithPublicKey32.loop 42 enc p fuel [] 0 []).out = Outcome.outOfFuel) := by
  have hex := encrypt_loop_offsets_exact K enc p
  constructor
  · intro hK hfit
    obtain ⟨h1, h2, h3, h4, h5⟩ := hex.1 hK hfit
    rw [EncryptWithPublicKey32_offsets_eq_exact K enc p hp,
      EncryptWithPublicKey32_eq_exact K enc p hp]
    refine ⟨h1, h2, h3, h4, h5, ?_⟩
    rw [h3, EncryptWithPublicKey_fit K hK enc p (fun s _ => hfit s),
      chunks_length _ (by omega)]
  · intro hne
    obtain ⟨h1, h2⟩ := hex.2 hne
    rw [toInt32_of_lt p.length hp]
    refine ⟨h1, fun fuel => ?_⟩
    rw [EncryptWithPublicKey32_offsets_eq_exact 42 enc p hp,
      EncryptWithPublicKey32_loop_eq_exact 42 enc p hp]
    exact h2 fuel

/-- Witness of C17 at `K = 44` (blocks of `2` bytes) on a `3`-byte input, and
at `K = 42` where the offset stays `0`. -/
theorem encrypt_loop_offsets_witness :
    EncryptWithPublicKey32.offsets 44 (toyEnc 44) [1, 2, 3] (([1, 2, 3] : Bytes).length + 1) 0
      = [0, 2, 3] ∧
    (EncryptWithPublicKey32.offsets 44 (toyEnc 44) [1, 2, 3]
      (([1, 2, 3] : Bytes).length + 1) 0).getLast? = some ([1, 2, 3] : Bytes).length ∧
    EncryptWithPublicKey32.offsets 42 (toyEnc 42) [1, 2, 3] 5 0 = List.replicate (5 + 1) 0 :=
  ⟨by decide,
    ((encrypt_loop_offsets 44 (toyEnc 44) [1, 2, 3] (by decide)).1 (by decide)
      (toyEnc_fit 44)).2.2.2.1,
    (((encrypt_loop_offsets 42 (toyEnc 42) [1, 2, 3] (by decide)).2 (by decide)).2 5).1⟩

/-! ## File-level results for the 32-bit reading -/

theorem streamBlocks_length_dvd (B W : Nat) (hB : 0 < B) (hW : 0 < W) (p : Bytes) :
    W ∣ p.length → (streamBlocks B W p).length = (p.length / W) * ((W + B - 1) / B) := by
  induction p using chunks_induction W hW with
  | hnil => intro _; simp [streamBlocks, chunks_nil]
  | hstep p hp ih =>
    intro hdvd
    have hpos : 0 < p.length := List.length_pos.mpr hp
    obtain ⟨k, hk⟩ := hdvd
    have hk1 : 1 ≤ k := by
      rcases Nat.eq_zero_or_pos k with h | h
      · rw [h, Nat.mul_zero] at hk; omega
      · exact h
    obtain ⟨j, rfl⟩ : ∃ j, k = j + 1 := ⟨k - 1, by omega⟩
    have hdl : (p.drop W).length = W * j := by
      rw [List.length_drop, hk, Nat.mul_succ]; omega
    have htl : (p.take W).length = W := by
      rw [List.length_take, hk, Nat.mul_succ]; omega
    rw [streamBlocks_of_ne_nil B W hW p hp, List.length_append, chunks_length B hB, htl,
      ih ⟨j, hdl⟩, hdl, hk, Nat.mul_div_cancel_left _ hW, Nat.mul_div_cancel_left _ hW,
      Nat.succ_mul]
    omega

theorem length_le_streamed (B W : Nat) (hB : 0 < B) (hW : 0 < W) (p : Bytes) :
    p.length ≤ B * (streamBlocks B W p).length := by
  have h := flatten_length_le B (streamBlocks B W p)
    (fun b hb => (streamBlocks_bounds B W hB p b hb).2)
  rwa [streamBlocks_flatten B W hB hW] at h

/-- Length of what `EncryptFileWith` writes when the primitive returns exactly
`K` bytes on every block: `K` bytes per block of the windows, hence at least
as many bytes as the input has. -/
theorem EncryptFileWith_written_length (K : Nat) (hK : 42 < K) (enc : Primitive) (W : Nat)
    (hW : 0 < W) (s : Session) (hs : s.public_key_ = some ⟨K, enc⟩) (p : Bytes)
    (henc : ∀ b : Bytes, 1 ≤ b.length → b.length ≤ K - 42 →
      ∃ c, enc b = some c ∧ c.length = K) :
    (EncryptFileWith W s ⟨some p, true, true⟩).status = .returned ∧
    (EncryptFileWith W s ⟨some p, true, true⟩).written.length =
      K * (streamBlocks (K - 42) W p).length ∧
    p.length ≤ (EncryptFileWith W s ⟨some p, true, true⟩).written.length := by
  have hB : 0 < K - 42 := by omega
  have hblk : ∀ b ∈ streamBlocks (K - 42) W p, ∃ c, enc b = some c ∧ c.length = K :=
    fun b hb => henc b (streamBlocks_bounds _ W hB p b hb).1
      (streamBlocks_bounds _ W hB p b hb).2
  have hfit : ∀ b ∈ streamBlocks (K - 42) W p, ∀ c, enc b = some c → c.length ≤ K := by
    intro b hb c hc
    obtain ⟨c2, h1, h2⟩ := hblk b hb
    rw [h1] at hc
    cases hc
    omega
  have hall : ∀ c ∈ (streamBlocks (K - 42) W p).map (blockOutput enc), c.length = K := by
    intro c hc
    obtain ⟨b, hb, rfl⟩ := List.mem_map.mp hc
    obtain ⟨c2, h1, h2⟩ := hblk b hb
    simp only [blockOutput, h1, Option.getD_some, h2]
  have hlen : ((streamBlocks (K - 42) W p).map (blockOutput enc)).flatten.length =
      K * (streamBlocks (K - 42) W p).length := by
    rw [flatten_length_of_forall K _ hall, List.length_map]
  have hge := length_le_streamed (K - 42) W hB hW p
  have hmul : (K - 42) * (streamBlocks (K - 42) W p).length ≤
      K * (streamBlocks (K - 42) W p).length := Nat.mul_le_mul_right _ (by omega)
  rw [EncryptFileWith_fit K hK enc W hW s hs p hfit]
  exact ⟨rfl, hlen, by rw [hlen]; omega⟩

theorem EncryptFile_huge_written (p : Bytes) (hlen : p.length = 2 ^ 31) :
    2 ^ 31 ≤ (EncryptFile (toySession 256) ⟨some p, true, true⟩).written.length := by
  have h := (EncryptFileWith_written_length 256 (by decide) (toyEnc 256) 10000 (by decide)
    (toySession 256) rfl p (fun b _ _ => toyEnc_length 256 b)).2.2
  rw [hlen] at h
  exact h

theorem EncryptFile_two_windows32 (p : Bytes) (hlen : p.length = 10058) :
    (EncryptFile (toySession 256) ⟨some p, true, true⟩).status = FileStatus.returned ∧
    (EncryptFile (toySession 256) ⟨some p, true, true⟩).written.length = 12288 ∧
    ∃ c, (EncryptWithPublicKey32 256 (toyEnc 256) p).out = .done c ∧ c.length = 12032 := by
  rw [EncryptWithPublicKey32_eq_exact 256 _ p (by rw [hlen]; decide)]
  exact EncryptFile_two_windows p hlen

/-- C5, as the claim states it, fails.  With `K = 256` (blocks of `214`
bytes) and the window size `10000` of `EncryptFile`, a `10058`-byte file is
written as `48` ciphertext blocks (`12288` bytes) while `EncryptWithPublicKey`
on the whole content returns `47` blocks (`12032` bytes): the first window
ends in a short block of `156` bytes.  The same happens with `K = 44` and
window size `3` on `[1, 2, 3, 4]`, where streaming encrypts the blocks
`[1, 2]`, `[3]`, `[4]` and the single call encrypts `[1, 2]`, `[3, 4]`.  And
for a content of `2 ^ 31` bytes the single call has a negative
`int data_size` and returns nothing, while streaming writes at least
`2 ^ 31` bytes. -/
theorem streaming_equivalence_counterexample :
    ((EncryptFile (toySession 256) ⟨some (List.replicate 10058 0), true, true⟩).status
        = FileStatus.returned ∧
      (EncryptFile (toySession 256) ⟨some (List.replicate 10058 0), true, true⟩).written.length
        = 12288 ∧
      ∃ c, (EncryptWithPublicKey32 256 (toyEnc 256) (List.replicate 10058 0)).out = .done c ∧
        c.length = 12032) ∧
    (EncryptFileWith 3 (toySession 44) ⟨some [1, 2, 3, 4], true, true⟩ =
        ⟨FileStatus.returned, resize [2, 1, 2] 44 ++ resize [1, 3] 44 ++ resize [1, 4] 44,
          [[1, 2], [3], [4]]⟩ ∧
      EncryptWithPublicKey32 44 (toyEnc 44) [1, 2, 3, 4] =
        ⟨Outcome.done (resize [2, 1, 2] 44 ++ resize [2, 3, 4] 44), [[1, 2], [3, 4]]⟩) ∧
    (EncryptWithPublicKey32 256 (toyEnc 256) (List.replicate (2 ^ 31) 0)
        = ⟨Outcome.done [], []⟩ ∧
      2 ^ 31 ≤ (EncryptFile (toySession 256)
        ⟨some (List.replicate (2 ^ 31) 0), true, true⟩).written.length) :=
  ⟨EncryptFile_two_windows32 (List.replicate 10058 0) (List.length_replicate _ _),
    ⟨by decide, by decide⟩,
    (EncryptWithPublicKey32_wrap 256 (toyEnc 256) _
      (by rw [List.length_replicate]; exact toInt32_two_pow_31)).1,
    EncryptFile_huge_written _ (List.length_replicate _ _)⟩

/-- C5 (amended): for every key size `K > 42`, every primitive whose output
fits the `K`-byte buffer, every window size `W ≥ 1` and every file content
`p` of fewer than `2 ^ 31` bytes such that `W` is a multiple of `K - 42` or
`p` fits in one window (`|p| ≤ W`), `EncryptFileWith W` returns and the bytes
it writes are exactly the result of `EncryptWithPublicKey` applied once to
the whole of `p` (and the primitive receives the same slices in the same
order). -/
theorem streaming_equivalence_aligned (K : Nat) (hK : 42 < K) (enc : Primitive)
    (hfit : ∀ b c, enc b = some c → c.length ≤ K) (W : Nat) (hW : 1 ≤ W) (p : Bytes)
    (hp : p.length < 2 ^ 31)
    (hal : (K - 42) ∣ W ∨ p.length ≤ W) (s : Session) (hs : s.public_key_ = some ⟨K, enc⟩) :
    ∃ c, EncryptWithPublicKey32 K enc p = ⟨Outcome.done c, chunks (K - 42) p⟩ ∧
      EncryptFileWith W s ⟨some p, true, true⟩ =
        ⟨FileStatus.returned, c, chunks (K - 42) p⟩ := by
  rw [EncryptWithPublicKey32_eq_exact K enc p hp]
  exact streaming_equivalence_aligned_exact K hK enc hfit W hW p hal s hs

/-- Witness of C5 at `K = 292` (blocks of `250` bytes, which divides the
window size `10000` of `EncryptFile`) on a `20500`-byte file (three read
windows). -/
theorem streaming_equivalence_aligned_witness :
    ∃ c, EncryptWithPublicKey32 292 (toyEnc 292) (List.replicate 20500 0) =
        ⟨Outcome.done c, chunks (292 - 42) (List.replicate 20500 0)⟩ ∧
      EncryptFile (toySession 292) ⟨some (List.replicate 20500 0), true, true⟩ =
        ⟨FileStatus.returned, c, chunks (292 - 42) (List.replicate 20500 0)⟩ :=
  streaming_equivalence_aligned 292 (by decide) (toyEnc 292) (toyEnc_fit 292) 10000 (by decide)
    (List.replicate 20500 0) (by rw [List.length_replicate]; decide)
    (Or.inl (by decide)) (toySession 292) rfl

/-- C14, as the claim states it, fails: with `K = 256` and the window size
`10000`, a file of `1800000000` bytes is written as `180000 * 47` ciphertext
blocks, `2165760000` bytes; in the single `DecryptWithPrivateKey` call on
those bytes `int data_size` is negative, the loop never runs and the result is
empty, not the file content. -/
theorem streamed_ciphertext_decrypts_counterexample :
    (List.replicate 1800000000 (0 : Byte)).length = 1800000000 ∧
    (EncryptFile (toySession 256)
      ⟨some (List.replicate 1800000000 0), true, true⟩).status = FileStatus.returned ∧
    (EncryptFile (toySession 256)
      ⟨some (List.replicate 1800000000 0), true, true⟩).written.length = 2165760000 ∧
    DecryptWithPrivateKey32 256 toyDec (EncryptFile (toySession 256)
      ⟨some (List.replicate 1800000000 0), true, true⟩).written = ⟨Outcome.done [], []⟩ := by
  have hlen : (List.replicate 1800000000 (0 : Byte)).length = 1800000000 :=
    List.length_replicate _ _
  have hfile := EncryptFileWith_written_length 256 (by decide) (toyEnc 256) 10000 (by decide)
    (toySession 256) rfl (List.replicate 1800000000 0) (fun b _ _ => toyEnc_length 256 b)
  have hcount := streamBlocks_length_dvd (256 - 42) 10000 (by decide) (by decide)
    (List.replicate 1800000000 0) (by rw [hlen]; decide)
  rw [hlen] at hcount
  have hw : (EncryptFile (toySession 256)
      ⟨some (List.replicate 1800000000 0), true, true⟩).written.length = 2165760000 := by
    show (EncryptFileWith 10000 _ _).written.length = _
    rw [hfile.2.1, hcount]
  refine ⟨hlen, hfile.1, hw, ?_⟩
  apply DecryptWithPrivateKey32_wrap
  rw [hw]
  decide

/-- C14 (amended): for every key size `K > 42`, every window size `W ≥ 1`,
every primitive pair such that on every block `b` of `1` to `K - 42` bytes
`enc b` has exactly `K` bytes and `dec (enc b) = b`, and every content `p`
for which the ciphertext written has fewer than `2 ^ 31` bytes,
`EncryptFileWith W` returns, the bytes it writes are the concatenation of
`EncryptWithPublicKey` over the consecutive `W`-byte windows of `p`, and one
call of `DecryptWithPrivateKey` on all of those bytes returns `p`. -/
theorem streamed_ciphertext_decrypts (K : Nat) (hK : 42 < K) (W : Nat) (hW : 1 ≤ W)
    (enc dec : Primitive)
    (hpair : ∀ b : Bytes, 1 ≤ b.length → b.length ≤ K - 42 →
      ∃ c, enc b = some c ∧ c.length = K ∧ dec c = some b)
    (p : Bytes) (s : Session) (hs : s.public_key_ = some ⟨K, enc⟩)
    (hlen : (EncryptFileWith W s ⟨some p, true, true⟩).written.length < 2 ^ 31) :
    (EncryptFileWith W s ⟨some p, true, true⟩).status = FileStatus.returned ∧
    (EncryptFileWith W s ⟨some p, true, true⟩).written =
      ((chunks W p).map (fun w => (EncryptWithPublicKey32 K enc w).out.bytes)).flatten ∧
    (DecryptWithPrivateKey32 K dec (EncryptFileWith W s ⟨some p, true, true⟩).written).out =
      Outcome.done p := by
  obtain ⟨h1, h2, h3⟩ := streamed_ciphertext_decrypts_exact K hK W hW enc dec hpair p s hs
  have hp : p.length < 2 ^ 31 := by
    have := (EncryptFileWith_written_length K hK enc W hW s hs p
      (fun b hb1 hb2 => (hpair b hb1 hb2).elim fun c hc => ⟨c, hc.1, hc.2.1⟩)).2.2
    omega
  have hwin : ∀ w ∈ chunks W p, (EncryptWithPublicKey32 K enc w).out.bytes =
      (EncryptWithPublicKey K enc w).out.bytes := by
    intro w hw
    have hwl : w.length ≤ p.length := by
      have hmem : w.length ≤ (chunks W p).flatten.length := by
        rw [List.length_flatten]
        exact List.single_le_sum (fun _ _ => Nat.zero_le _) _
          (List.mem_map_of_mem List.length hw)
      rwa [chunks_join W hW p] at hmem
    rw [EncryptWithPublicKey32_eq_exact K enc w (by omega)]
  refine ⟨h1, ?_, ?_⟩
  · rw [h2, List.map_congr_left hwin]
  · rw [DecryptWithPrivateKey32_eq_exact K dec _ hlen]
    exact h3

/-- Witness of C14 at `K = 256` with the window size `10000` of `EncryptFile`
on a `10058`-byte file (two read windows, the first ending in a short block). -/
theorem streamed_ciphertext_decrypts_witness :
    (DecryptWithPrivateKey32 256 toyDec
      (EncryptFile (toySession 256) ⟨some (List.replicate 10058 0), true, true⟩).written).out =
      Outcome.done (List.replicate 10058 0) :=
  (streamed_ciphertext_decrypts 256 (by decide) 10000 (by decide) (toyEnc 256) toyDec
    (fun b _ h2 => toyDec_toyEnc 256 b (by omega) (by omega)) (List.replicate 10058 0)
    (toySession 256) rfl
    (by
      have h := (EncryptFile_two_windows (List.replicate 10058 0)
        (List.length_replicate _ _)).2.1
      show (EncryptFile _ _).written.length < 2 ^ 31
      rw [h]
      decide)).2.2

theorem constDec_fit (K : Nat) (hK : 0 < K) :
    ∀ b : Bytes, b.length = K → ∀ m, constDec b = some m → m.length ≤ K := by
  intro b _ m hm
  simp only [constDec, Option.some.injEq] at hm
  subst hm
  exact hK

theorem constDec_output_length (K : Nat) (hK : 0 < K) (c : Bytes) :
    ((chunks K c).map (blockOutput constDec)).flatten.length = (c.length + K - 1) / K := by
  rw [flatten_length_of_forall 1 _ (by
    intro x hx
    obtain ⟨b, _, rfl⟩ := List.mem_map.mp hx
    rfl), List.length_map, chunks_length K hK, Nat.one_mul]

/-- C15, as the claim states it, fails: with `K = 400` (which divides `10000`)
and a ciphertext of `2147484000 = 400 * 5368710` bytes, the single
`DecryptWithPrivateKey` call has a negative `int data_size` and returns
nothing, while `DecryptFile` decrypts every block of every window and writes
`5368710` bytes. -/
theorem aligned_window_streaming_decrypt_counterexample :
    (List.replicate 2147484000 (0 : Byte)).length % 400 = 0 ∧
    DecryptWithPrivateKey32 400 constDec (List.replicate 2147484000 0)
      = ⟨Outcome.done [], []⟩ ∧
    (DecryptFile ⟨none, some ⟨400, constDec⟩, (true, true)⟩
      ⟨some (List.replicate 2147484000 0), true, true⟩).status = FileStatus.returned ∧
    (DecryptFile ⟨none, some ⟨400, constDec⟩, (true, true)⟩
      ⟨some (List.replicate 2147484000 0), true, true⟩).written.length = 5368710 := by
  have hlen : (List.replicate 2147484000 (0 : Byte)).length = 2147484000 :=
    List.length_replicate _ _
  have hfile := (DecryptFileWith_aligned 400 (by decide) constDec 10000 (by decide)
    (by decide) ⟨none, some ⟨400, constDec⟩, (true, true)⟩ rfl (List.replicate 2147484000 0)
    (by rw [hlen]; decide) (constDec_fit 400 (by decide))).1
  refine ⟨(congrArg (fun n => n % 400) hlen).trans (by decide), ?_, ?_, ?_⟩
  · apply DecryptWithPrivateKey32_wrap
    rw [hlen]
    decide
  · show (DecryptFileWith 10000 _ _).status = _
    rw [hfile]
  · show (DecryptFileWith 10000 _ _).written.length = _
    rw [hfile]
    dsimp only
    rw [constDec_output_length 400 (by decide), hlen]

/-- C15 (amended): for every key size `K` that divides the read window size
`10000`, every decrypt primitive whose output fits the `K`-byte buffer and
every ciphertext `c` of fewer than `2 ^ 31` bytes whose length is a multiple
of `K`, `DecryptFile` returns, the bytes it writes are the concatenation of
`DecryptWithPrivateKey` over the consecutive `10000`-byte windows of `c`,
they equal the result of `DecryptWithPrivateKey` applied once to the whole of
`c`, and every slice handed to the primitive has exactly `K` bytes. -/
theorem aligned_window_streaming_decrypt (K : Nat) (hdiv : K ∣ 10000) (dec : Primitive)
    (hfit : ∀ b : Bytes, b.length = K → ∀ m, dec b = some m → m.length ≤ K)
    (c : Bytes) (hlen : c.length % K = 0) (hc : c.length < 2 ^ 31) (s : Session)
    (hs : s.private_key_ = some ⟨K, dec⟩) :
    ∃ m, DecryptWithPrivateKey32 K dec c = ⟨Outcome.done m, chunks K c⟩ ∧
      DecryptFile s ⟨some c, true, true⟩ = ⟨FileStatus.returned, m, chunks K c⟩ ∧
      (DecryptFile s ⟨some c, true, true⟩).written =
        ((chunks 10000 c).map
          (fun w => (DecryptWithPrivateKey32 K dec w).out.bytes)).flatten ∧
      (∀ x ∈ (DecryptFile s ⟨some c, true, true⟩).calls, x.length = K) := by
  obtain ⟨m, h1, h2, h3, h4⟩ :=
    aligned_window_streaming_decrypt_exact K hdiv dec hfit c hlen s hs
  have hwin : ∀ w ∈ chunks 10000 c, (DecryptWithPrivateKey32 K dec w).out.bytes =
      (DecryptWithPrivateKey K dec w).out.bytes := by
    intro w hw
    have hwl := (chunks_bounds 10000 (by decide) c w hw).2
    rw [DecryptWithPrivateKey32_eq_exact K dec w
      (lt_of_le_of_lt hwl (by decide))]
  refine ⟨m, ?_, h2, ?_, h4⟩
  · rw [DecryptWithPrivateKey32_eq_exact K dec c hc]
    exact h1
  · rw [h3, List.map_congr_left hwin]

theorem aligned_two_windows (c : Bytes) (hlen : c.length = 12000) (m : Bytes)
    (h : DecryptWithPrivateKey32 400 constDec c = ⟨.done m, chunks 400 c⟩) :
    (chunks 10000 c).length = 2 ∧ m.length = 30 := by
  have hc : c.length < 2 ^ 31 := by rw [hlen]; decide
  have h5 := DecryptWithPrivateKey_aligned_blocks 400 (by decide) constDec c
    (by rw [hlen]; decide) (constDec_fit 400 (by decide))
  rw [DecryptWithPrivateKey32_eq_exact 400 constDec c hc, h5] at h
  injection h with h _
  injection h with h
  constructor
  · rw [chunks_length 10000 (by decide), hlen]
  · rw [← h, constDec_output_length 400 (by decide), hlen]

/-- Witness of C15 at `K = 400` (a `3200`-bit key) on a `12000`-byte
ciphertext: two read windows (`25` and `5` blocks) and `30` bytes written. -/
theorem aligned_window_streaming_decrypt_witness :
    ∃ m, DecryptWithPrivateKey32 400 constDec (List.replicate 12000 0) =
        ⟨Outcome.done m, chunks 400 (List.replicate 12000 0)⟩ ∧
      DecryptFile ⟨none, some ⟨400, constDec⟩, (true, true)⟩
          ⟨some (List.replicate 12000 0), true, true⟩ =
        ⟨FileStatus.returned, m, chunks 400 (List.replicate 12000 0)⟩ ∧
      (chunks 10000 (List.replicate 12000 0)).length = 2 ∧
      m.length = 30 := by
  have hlen : (List.replicate 12000 (0 : Byte)).length = 12000 := List.length_replicate _ _
  obtain ⟨m, h1, h2, _⟩ := aligned_window_streaming_decrypt 400 (by decide) constDec
    (constDec_fit 400 (by decide)) (List.replicate 12000 0)
    ((congrArg (fun n => n % 400) hlen).trans (by decide))
    (lt_of_eq_of_lt hlen (by decide))
    ⟨none, some ⟨400, constDec⟩, (true, true)⟩ rfl
  exact ⟨m, h1, h2, aligned_two_windows _ hlen m h1⟩

/-! ## Missing key and key handle release -/

theorem streamFile_nullKey_nonempty (t : Bytes → Run Bytes) (ht : ∀ w, t w = ⟨.nullKey, []⟩)
    (W : Nat) (hW : 0 < W) (content : Bytes) (hne : content ≠ []) :
    streamFile t W ⟨some content, true, true⟩ = ⟨.nullKey, [], []⟩ := by
  rw [streamFile_eq t W hW content, chunks_of_ne_nil W hW content hne]
  unfold transformWindows
  rw [ht]
  rfl

/-- C10: after `Crypto(public_key)` on a string that does not parse, the
public-key handle is null and the flag `keys_.first` is nevertheless `true`;
`EncryptFile` makes no key check, so on every existing, readable, non-empty
file the null handle reaches `RSA_size` (line 149) on the first window,
before any primitive call and before anything is written, instead of a
missing-key error being reported; likewise `DecryptFile` on a session without
a private key (line 168). -/
theorem missing_key_reaches_null_handle (init : Session) (bio : Bool)
    (PEM_read_bio_RSA_PUBKEY : String → Option RSA) (public_key : String)
    (hparse : PEM_read_bio_RSA_PUBKEY public_key = none)
    (content : Bytes) (hne : content ≠ []) :
    (Crypto.ofString init bio PEM_read_bio_RSA_PUBKEY public_key).public_key_ = none ∧
    (Crypto.ofString init bio PEM_read_bio_RSA_PUBKEY public_key).keys_.1 = true ∧
    EncryptFile (Crypto.ofString init bio PEM_read_bio_RSA_PUBKEY public_key)
      ⟨some content, true, true⟩ = ⟨FileStatus.nullKey, [], []⟩ ∧
    (∀ s : Session, s.private_key_ = none →
      DecryptFile s ⟨some content, true, true⟩ = ⟨FileStatus.nullKey, [], []⟩) := by
  have hkey : (Crypto.ofString init bio PEM_read_bio_RSA_PUBKEY public_key).public_key_
      = none := by
    show CreatePublicKeyFromString bio PEM_read_bio_RSA_PUBKEY public_key = none
    unfold CreatePublicKeyFromString
    rw [hparse]
    simp
  refine ⟨hkey, rfl, ?_, ?_⟩
  · unfold EncryptFile EncryptFileWith
    rw [hkey]
    exact streamFile_nullKey_nonempty _ (fun _ => rfl) 10000 (by decide) content hne
  · intro s hs
    unfold DecryptFile DecryptFileWith
    rw [hs]
    exact streamFile_nullKey_nonempty _ (fun _ => rfl) 10000 (by decide) content hne

/-- Witness of C10 on a one-byte file. -/
theorem missing_key_reaches_null_handle_witness :
    (Crypto.ofString ⟨none, none, (false, false)⟩ true (fun _ => none) "not a key").keys_.1
      = true ∧
    EncryptFile (Crypto.ofString ⟨none, none, (false, false)⟩ true (fun _ => none) "not a key")
      ⟨some [7], true, true⟩ = ⟨FileStatus.nullKey, [], []⟩ :=
  ⟨(missing_key_reaches_null_handle ⟨none, none, (false, false)⟩ true (fun _ => none)
      "not a key" rfl [7] (by decide)).2.1,
    (missing_key_reaches_null_handle ⟨none, none, (false, false)⟩ true (fun _ => none)
      "not a key" rfl [7] (by decide)).2.2.1⟩

end crypto
